import Mathlib

/-!
# Binary search array

A verification development for `binary_search_array.hpp` (class
`ys::BinarySearchArray<TYPE>`) and its demonstration driver `main.cpp`.

Embedding conventions.

* `std::vector<TYPE>` is a `List α`; `operator!=` of `TYPE` is decidable equality.
* `size_t` is `Nat`.  An array of `n` elements has `n < 2^(w-1)` for a `w`-bit
  `size_t`, the capacity computed for it is at most `2 * n`, every index the build
  computes is below that capacity or below `2 * n`, and every index `search` computes is
  below `2 * size()`; so no `size_t` operation of the code wraps, and none is reduced
  modulo `2^w` here.
* `int` (the comparator's result) is `Int`.
* A pointer that may be null is an `Option`.
* A method that mutates the object maps the state before the call to a status and the
  state at the moment the call returns or stops.  A failed `assert` is
  `Fault.assertion`; an access outside a vector or the input array (undefined behaviour
  in C++) is `Fault.bounds`.
* Loops and recursion are driven by a fuel argument; running out of fuel is
  `Fault.fuel`, and the theorems show that enough fuel always gives a result.
* The standard output of the driver is the list of its `printf` calls, each a
  `Demo.Output` item.
-/

set_option autoImplicit false

namespace ys

deriving instance DecidableEq for Except

/-- The ways in which a call can stop without returning. -/
inductive Fault where
  | assertion
  | bounds
  | fuel
  deriving DecidableEq, Repr

/-- The data members of `BinarySearchArray<TYPE>`: the tree (1-based), the
terminator value and the comparison function pointer. -/
structure BinarySearchArray (α : Type) where
  tree_ : List α
  invalid_ : α
  compare_ : Option (α → α → Int)

/-- `std::vector::clear`. -/
def vector_clear {α : Type} (_v : List α) : List α := []

/-- `std::vector::resize(n, x)`: truncate to `n` elements or pad with copies of `x`. -/
def vector_resize {α : Type} (v : List α) (n : Nat) (x : α) : List α :=
  v.take n ++ List.replicate (n - v.length) x

namespace BinarySearchArray

variable {α : Type}

/-- The constructor: stores the terminator and the comparator; the tree starts empty. -/
def new (invalid : α) (compare : Option (α → α → Int)) : BinarySearchArray α :=
  { tree_ := [], invalid_ := invalid, compare_ := compare }

/-- The body of `prepare`:
`c = (s + e) / 2; tree_[i] = input[c];`
`if (s < c) recursive_prepare(input, i * 2, s, c - 1);`
`if (c < e) recursive_prepare(input, i * 2 + 1, c + 1, e);` -/
def recursive_prepare (input : List α) :
    Nat → Nat → Nat → Nat → BinarySearchArray α → Except Fault Unit × BinarySearchArray α
  | 0, _, _, _, t => (.error .fuel, t)
  | fuel + 1, i, s, e, t =>
    let c := (s + e) / 2
    match input[c]? with
    | none => (.error .bounds, t)
    | some x =>
      if i < t.tree_.length then
        let t1 := { t with tree_ := t.tree_.set i x }
        match (if s < c then recursive_prepare input fuel (i * 2) s (c - 1) t1
               else (.ok (), t1)) with
        | (.error f, t2) => (.error f, t2)
        | (.ok (), t2) =>
          if c < e then recursive_prepare input fuel (i * 2 + 1) (c + 1) e t2
          else (.ok (), t2)
      else (.error .bounds, t)

/-- The slot writes `tree_[i] = input[c]` of `recursive_prepare(input, i, s, e)` in
execution order, each as the pair (tree index `i`, input index `c`). -/
def recursive_prepare_writes : Nat → Nat → Nat → Nat → List (Nat × Nat)
  | 0, _, _, _ => []
  | fuel + 1, i, s, e =>
    (i, (s + e) / 2) ::
      ((if s < (s + e) / 2 then recursive_prepare_writes fuel (i * 2) s ((s + e) / 2 - 1)
        else []) ++
       (if (s + e) / 2 < e then recursive_prepare_writes fuel (i * 2 + 1) ((s + e) / 2 + 1) e
        else []))

/-- The sizing loop of `prepare`: `while (l <= length) l *= 2;` started from `l`. -/
def prepare_size : Nat → Nat → Nat → Option Nat
  | 0, _, _ => none
  | fuel + 1, l, length =>
    if l ≤ length then prepare_size fuel (l * 2) length else some l

/-- The method `prepare(input, length)`. -/
def prepare (fuel : Nat) (t : BinarySearchArray α) (input : Option (List α)) (length : Nat) :
    Except Fault Unit × BinarySearchArray α :=
  match input with
  | none => (.error .assertion, t)
  | some a =>
    if length = 0 then (.error .assertion, t)
    else
      match prepare_size fuel 1 length with
      | none => (.error .fuel, t)
      | some l =>
        let t1 := { t with tree_ := vector_clear t.tree_ }
        let t2 := { t1 with tree_ := vector_resize t1.tree_ l t1.invalid_ }
        recursive_prepare a fuel 1 0 (length - 1) t2

/-- The loop of `search`, started at index `i`. -/
def search_loop [DecidableEq α] (tree : List α) (invalid : α) (compare : α → α → Int)
    (data : α) : Nat → Nat → Except Fault Nat
  | 0, _ => .error .fuel
  | fuel + 1, i =>
    if h : i < tree.length then
      if tree[i] ≠ invalid then
        let v := compare data tree[i]
        if v < 0 then search_loop tree invalid compare data fuel (i * 2)
        else if 0 < v then search_loop tree invalid compare data fuel (i * 2 + 1)
        else .ok i
      else .ok 0
    else .ok 0

/-- The method `search(data)`. -/
def search [DecidableEq α] (fuel : Nat) (t : BinarySearchArray α) (data : α) :
    Except Fault Nat :=
  match t.compare_ with
  | none => .error .assertion
  | some compare => search_loop t.tree_ t.invalid_ compare data fuel 1

/-- The method `get(i)`. -/
def get (t : BinarySearchArray α) (i : Nat) : Except Fault α :=
  if 0 < i then
    if h : i < t.tree_.length then .ok t.tree_[i]
    else .error .assertion
  else .error .assertion

/-- The method `size()`. -/
def size (t : BinarySearchArray α) : Nat := t.tree_.length

end BinarySearchArray

end ys

namespace Demo

/-- The comparison function of `main.cpp`. -/
def compare (left right : Int) : Int :=
  if left < right then -1
  else if left > right then 1
  else 0

/-- The constant `INT_MIN` for a 32-bit `int`. -/
def INT_MIN : Int := -2147483648

/-- The array `data_1` of `main`. -/
def data_1 : List Int := [0, 1, 2, 3, 4, 5, 6]

/-- The array `data_2` of `main`. -/
def data_2 : List Int := [7, 8, 9, 10, 11, 12, 13, 14, 15]

/-- The constant `key` of `main`. -/
def key : Int := 5

/-- A comparator that follows the convention documented for `compare_` in the header:
0 when the two arguments are equal, a negative number when the first argument is greater,
a positive number otherwise. -/
def compare_documented (left right : Int) : Int :=
  if left = right then 0
  else if left > right then -1
  else 1

/-- What the driver writes to standard output, one item per `printf` call:
`", "`, `"[i] v"`, `"[i] -"`, the end of a line, and `"key => found"` or
`"key => not found"`. -/
inductive Output where
  | separator
  | slot (i : Nat) (v : Int)
  | empty_slot (i : Nat)
  | newline
  | verdict (key : Int) (found : Bool)
  deriving DecidableEq, Repr

/-- The loop of `print`: `for (size_t i(0); i < l; ++i)`, here from the current `i`. -/
def print_loop (tree : ys.BinarySearchArray Int) (invalid : Int) (l : Nat) :
    Nat → Nat → List Output → Except ys.Fault Unit × List Output
  | 0, _, out => (.error .fuel, out)
  | fuel + 1, i, out =>
    if i < l then
      let out1 := if 1 < i then out ++ [Output.separator] else out
      match tree.get i with
      | .error f => (.error f, out1)
      | .ok v =>
        let out2 :=
          if invalid ≠ v then out1 ++ [Output.slot i v] else out1 ++ [Output.empty_slot i]
        print_loop tree invalid l fuel (i + 1) out2
    else (.ok (), out)

/-- The function `print(tree, invalid)` of `main.cpp`. -/
def print (fuel : Nat) (tree : ys.BinarySearchArray Int) (invalid : Int) (out : List Output) :
    Except ys.Fault Unit × List Output :=
  match print_loop tree invalid tree.size fuel 0 out with
  | (.error f, out1) => (.error f, out1)
  | (.ok (), out1) => (.ok (), out1 ++ [Output.newline])

/-- The function `main` of `main.cpp`: its exit status, or the fault that stops it, and the
output written so far. -/
def main (fuel : Nat) : Except ys.Fault Int × List Output :=
  let tree := ys.BinarySearchArray.new INT_MIN (some compare)
  match ys.BinarySearchArray.prepare fuel tree (some data_1) data_1.length with
  | (.error f, _) => (.error f, [])
  | (.ok (), tree1) =>
    match print fuel tree1 INT_MIN [] with
    | (.error f, out1) => (.error f, out1)
    | (.ok (), out1) =>
      match ys.BinarySearchArray.search fuel tree1 key with
      | .error f => (.error f, out1)
      | .ok flag =>
        let out2 := out1 ++ [Output.verdict key (decide (flag ≠ 0))]
        match ys.BinarySearchArray.prepare fuel tree1 (some data_2) data_2.length with
        | (.error f, _) => (.error f, out2)
        | (.ok (), tree2) =>
          match print fuel tree2 INT_MIN out2 with
          | (.error f, out3) => (.error f, out3)
          | (.ok (), out3) =>
            match ys.BinarySearchArray.search fuel tree2 key with
            | .error f => (.error f, out3)
            | .ok flag2 => (.ok 0, out3 ++ [Output.verdict key (decide (flag2 ≠ 0))])

end Demo

namespace ys

/-- Index `j` lies in the subtree rooted at `root` of the implicit tree whose node `i`
has the children `2 * i` and `2 * i + 1`: halving `j` some number of times gives
`root`. -/
def inSubtree (root j : Nat) : Prop := ∃ d, d ≤ j ∧ j / 2 ^ d = root

instance inSubtree.decidable (root j : Nat) : Decidable (inSubtree root j) := by
  unfold inSubtree
  infer_instance

/-- Replays a list of slot writes (tree index, input index) on a tree. -/
def apply_writes {α : Type} (input : List α) : List α → List (Nat × Nat) → List α
  | tree, [] => tree
  | tree, w :: ws =>
    apply_writes input
      (match input[w.2]? with
       | some x => tree.set w.1 x
       | none => tree) ws

/-- The number of times the loop of `search`, started at index `i`, calls the comparator. -/
def search_loop_calls {α : Type} [DecidableEq α] (tree : List α) (invalid : α)
    (compare : α → α → Int) (data : α) : Nat → Nat → Nat
  | 0, _ => 0
  | fuel + 1, i =>
    if h : i < tree.length then
      if tree[i] ≠ invalid then
        let v := compare data tree[i]
        if v < 0 then 1 + search_loop_calls tree invalid compare data fuel (i * 2)
        else if 0 < v then 1 + search_loop_calls tree invalid compare data fuel (i * 2 + 1)
        else 1
      else 0
    else 0

/-- In-order traversal of the implicit tree from index `i`: the subtree at `2 * i`, then
slot `i`, then the subtree at `2 * i + 1`, stopping at sentinel slots and at indices
outside the vector; `none` when the fuel runs out. -/
def inorder {α : Type} [DecidableEq α] (tree : List α) (invalid : α) :
    Nat → Nat → Option (List α)
  | 0, _ => none
  | fuel + 1, i =>
    if h : i < tree.length then
      if tree[i] ≠ invalid then
        match inorder tree invalid fuel (i * 2), inorder tree invalid fuel (i * 2 + 1) with
        | some l, some r => some (l ++ tree[i] :: r)
        | _, _ => none
      else some []
    else some []

/-- The comparator contract of the data model: negative, zero or positive as the first
argument is smaller than, equal to or larger than the second. -/
def ThreeWay {α : Type} [LinearOrder α] (compare : α → α → Int) : Prop :=
  ∀ a b, (a < b → compare a b < 0) ∧ (a = b → compare a b = 0) ∧ (b < a → 0 < compare a b)

end ys

open ys ys.BinarySearchArray

/-! ## Index arithmetic -/

theorem div_pow_antitone (j d d' : Nat) (h : d ≤ d') : j / 2 ^ d' ≤ j / 2 ^ d :=
  Nat.div_le_div_left (Nat.pow_le_pow_right (by decide) h) (Nat.pos_pow_of_pos d (by decide))

theorem div_pow_succ (j d : Nat) : j / 2 ^ (d + 1) = j / 2 ^ d / 2 := by
  rw [pow_succ, Nat.div_div_eq_div_mul]

theorem inSubtree_iff (root j : Nat) : inSubtree root j ↔ ∃ d, j / 2 ^ d = root := by
  constructor
  · rintro ⟨d, _, h⟩
    exact ⟨d, h⟩
  · rintro ⟨d, h⟩
    by_cases hd : d ≤ j
    · exact ⟨d, hd, h⟩
    · refine ⟨j, le_refl j, ?_⟩
      have h1 : j < 2 ^ j := Nat.lt_two_pow j
      have h2 : j / 2 ^ d ≤ j / 2 ^ j := div_pow_antitone j j d (by omega)
      rw [Nat.div_eq_of_lt h1] at h2 ⊢
      omega

theorem inSubtree_step (root j : Nat) :
    inSubtree root j ↔ j = root ∨ (0 < j ∧ inSubtree root (j / 2)) := by
  rw [inSubtree_iff, inSubtree_iff]
  constructor
  · rintro ⟨d, hd⟩
    rcases d with _ | d
    · left
      simpa using hd
    · by_cases hj : j = root
      · exact Or.inl hj
      · right
        refine ⟨?_, d, ?_⟩
        · rcases Nat.eq_zero_or_pos j with h0 | h0
          · subst h0
            simp at hd
            exact absurd hd hj
          · exact h0
        · rw [← hd, pow_succ', Nat.div_div_eq_div_mul]
  · rintro (h | ⟨_, d, hd⟩)
    · exact ⟨0, by simpa using h⟩
    · exact ⟨d + 1, by rw [pow_succ', ← Nat.div_div_eq_div_mul, hd]⟩

theorem sub_disjoint (r j d d' : Nat) (hr : 1 ≤ r) (h1 : j / 2 ^ d = r * 2)
    (h2 : j / 2 ^ d' = r * 2 + 1) : False := by
  by_cases hd : d ≤ d'
  · have := div_pow_antitone j d d' hd
    omega
  · have h3 := div_pow_antitone j (d' + 1) d (by omega)
    rw [div_pow_succ] at h3
    omega

/-! ## The sizing loop -/

theorem prepare_size_spec (fuel : Nat) : ∀ l n : Nat, 0 < l → 0 < fuel → n + 2 ≤ l + fuel →
    ∃ d, prepare_size fuel l n = some (l * 2 ^ d) ∧ n < l * 2 ^ d ∧
      (d = 0 ∨ l * 2 ^ (d - 1) ≤ n) := by
  induction fuel with
  | zero => intro l n _ h; omega
  | succ f ih =>
    intro l n hl _ hf
    unfold prepare_size
    by_cases hln : l ≤ n
    · obtain ⟨d, h1, h2, h3⟩ := ih (l * 2) n (by omega) (by omega) (by omega)
      refine ⟨d + 1, ?_, ?_, Or.inr ?_⟩
      · rw [if_pos hln, h1, pow_succ]
        congr 1
        ring
      · rw [pow_succ]
        calc n < l * 2 * 2 ^ d := h2
          _ = l * (2 ^ d * 2) := by ring
      · rcases h3 with h3 | h3
        · subst h3
          simpa using hln
        · have : d = (d - 1) + 1 := by
            rcases d with _ | d
            · simp at h3
              omega
            · simp
          simp only [Nat.add_sub_cancel]
          rw [this, pow_succ]
          calc l * (2 ^ (d - 1) * 2) = l * 2 * 2 ^ (d - 1) := by ring
            _ ≤ n := h3
    · refine ⟨0, ?_, ?_, Or.inl rfl⟩
      · rw [if_neg hln]
        simp
      · simp
        omega

theorem prepare_size_one (fuel n : Nat) (hn : 0 < n) (hf : n < fuel) :
    ∃ k, 0 < k ∧ prepare_size fuel 1 n = some (2 ^ k) ∧ 2 ^ (k - 1) ≤ n ∧ n < 2 ^ k := by
  obtain ⟨d, h1, h2, h3⟩ := prepare_size_spec fuel 1 n (by decide) (by omega) (by omega)
  simp only [one_mul] at h1 h2 h3
  rcases h3 with h3 | h3
  · subst h3
    simp at h2
    omega
  · refine ⟨d, ?_, h1, h3, h2⟩
    rcases d with _ | d
    · simp at h2
      omega
    · omega

/-! ## The writes of the recursion -/

theorem writes_mem (fuel : Nat) : ∀ (i s e : Nat), s ≤ e →
    ∀ w ∈ recursive_prepare_writes fuel i s e,
      (∃ d, 2 ^ d ≤ e - s + 1 ∧ w.1 / 2 ^ d = i) ∧ s ≤ w.2 ∧ w.2 ≤ e := by
  induction fuel with
  | zero => intro i s e _ w hw; simp [recursive_prepare_writes] at hw
  | succ f ih =>
    intro i s e hse w hw
    unfold recursive_prepare_writes at hw
    rw [List.mem_cons, List.mem_append] at hw
    rcases hw with hw | hw | hw
    · subst hw
      refine ⟨⟨0, ?_, ?_⟩, ?_, ?_⟩ <;> simp <;> omega
    · split at hw
      · rename_i hsc
        obtain ⟨⟨d, hd1, hd2⟩, h2, h3⟩ := ih (i * 2) s ((s + e) / 2 - 1) (by omega) w hw
        refine ⟨⟨d + 1, ?_, ?_⟩, h2, by omega⟩
        · rw [pow_succ]
          omega
        · rw [div_pow_succ, hd2]
          omega
      · simp at hw
    · split at hw
      · rename_i hce
        obtain ⟨⟨d, hd1, hd2⟩, h2, h3⟩ := ih (i * 2 + 1) ((s + e) / 2 + 1) e (by omega) w hw
        refine ⟨⟨d + 1, ?_, ?_⟩, by omega, h3⟩
        · rw [pow_succ]
          omega
        · rw [div_pow_succ, hd2]
          omega
      · simp at hw

/-! ## Replaying writes -/

theorem apply_writes_length {α : Type} (input : List α) (ws : List (Nat × Nat)) :
    ∀ tree : List α, (apply_writes input tree ws).length = tree.length := by
  induction ws with
  | nil => intro tree; rfl
  | cons w ws ih =>
    intro tree
    rw [apply_writes, ih]
    split <;> simp

theorem apply_writes_append {α : Type} (input : List α) (ws ws' : List (Nat × Nat)) :
    ∀ tree : List α, apply_writes input tree (ws ++ ws') =
      apply_writes input (apply_writes input tree ws) ws' := by
  induction ws with
  | nil => intro tree; rfl
  | cons w ws ih =>
    intro tree
    rw [List.cons_append, apply_writes, apply_writes, ih]

theorem apply_writes_frame {α : Type} (input : List α) (ws : List (Nat × Nat)) (j : Nat) :
    ∀ tree : List α, (∀ w ∈ ws, w.1 ≠ j) → (apply_writes input tree ws)[j]? = tree[j]? := by
  induction ws with
  | nil => intro tree _; rfl
  | cons w ws ih =>
    intro tree h
    rw [apply_writes, ih _ (fun w' hw' => h w' (List.mem_cons_of_mem _ hw'))]
    have hw : w.1 ≠ j := h w (List.mem_cons_self _ _)
    split
    · exact List.getElem?_set_ne hw
    · rfl

theorem apply_writes_mem {α : Type} (input : List α) (ws : List (Nat × Nat)) :
    ∀ (tree : List α) (y : α), y ∈ apply_writes input tree ws → y ∈ tree ∨ y ∈ input := by
  induction ws with
  | nil => intro tree y h; exact Or.inl h
  | cons w ws ih =>
    intro tree y h
    rw [apply_writes] at h
    rcases ih _ y h with h1 | h1
    · split at h1
      · rename_i x hx
        rcases List.mem_or_eq_of_mem_set h1 with h2 | h2
        · exact Or.inl h2
        · subst h2
          exact Or.inr (List.getElem?_mem hx)
      · exact Or.inl h1
    · exact Or.inr h1

theorem apply_writes_content {α : Type} (input : List α) (ws : List (Nat × Nat)) :
    ∀ (tree : List α), (ws.map Prod.fst).Nodup → ∀ w ∈ ws, w.1 < tree.length →
      w.2 < input.length → (apply_writes input tree ws)[w.1]? = input[w.2]? := by
  induction ws with
  | nil => intro tree _ w hw; simp at hw
  | cons v ws ih =>
    intro tree hnd w hw hlen hin
    rw [List.map_cons, List.nodup_cons] at hnd
    rw [apply_writes]
    rcases List.mem_cons.mp hw with h | h
    · subst h
      rw [apply_writes_frame]
      · rw [List.getElem?_eq_getElem hin]
        simp [hlen]
      · intro w' hw' heq
        exact hnd.1 (heq ▸ List.mem_map_of_mem Prod.fst hw')
    · apply ih _ hnd.2 w h _ hin
      split <;> simp [hlen]

theorem recursive_prepare_eq {α : Type} (input : List α) (fuel : Nat) :
    ∀ (i s e : Nat) (t : BinarySearchArray α), s ≤ e → e - s < fuel → e < input.length →
      (∀ w ∈ recursive_prepare_writes fuel i s e, w.1 < t.tree_.length) →
      recursive_prepare input fuel i s e t =
        (.ok (),
          { t with tree_ := apply_writes input t.tree_ (recursive_prepare_writes fuel i s e) }) := by
  induction fuel with
  | zero => intro i s e t _ h; omega
  | succ f ih =>
    intro i s e t hse hf he hb
    have hc : (s + e) / 2 < input.length := by omega
    have hx : input[(s + e) / 2]? = some input[(s + e) / 2] := List.getElem?_eq_getElem hc
    have hi : i < t.tree_.length := hb (i, (s + e) / 2) (by simp [recursive_prepare_writes])
    rw [recursive_prepare_writes] at hb ⊢
    rw [recursive_prepare]
    simp only [hx, hi, if_true, apply_writes, apply_writes_append]
    by_cases h1 : s < (s + e) / 2
    · simp only [h1, if_true] at hb ⊢
      rw [ih (i * 2) s ((s + e) / 2 - 1) _ (by omega) (by omega) (by omega)
        (fun w hw => by
          have := hb w (by simp [hw])
          simpa using this)]
      by_cases h2 : (s + e) / 2 < e
      · simp only [h2, if_true] at hb ⊢
        rw [ih (i * 2 + 1) ((s + e) / 2 + 1) e _ (by omega) (by omega) (by omega)
          (fun w hw => by
            have := hb w (by simp [hw])
            simpa [apply_writes_length] using this)]
      · simp only [h2, if_false, apply_writes]
    · simp only [h1, if_false, apply_writes] at hb ⊢
      by_cases h2 : (s + e) / 2 < e
      · simp only [h2, if_true] at hb ⊢
        rw [ih (i * 2 + 1) ((s + e) / 2 + 1) e _ (by omega) (by omega) (by omega)
          (fun w hw => by
            have := hb w (by simp [hw])
            simpa using this)]
      · simp only [h2, if_false, apply_writes]

theorem writes_left_mem (fuel i s e : Nat) (w : Nat × Nat)
    (hw : w ∈ (if s < (s + e) / 2 then
      recursive_prepare_writes fuel (i * 2) s ((s + e) / 2 - 1) else [])) :
    (∃ d, w.1 / 2 ^ d = i * 2) ∧ s ≤ w.2 ∧ w.2 < (s + e) / 2 := by
  split at hw
  · obtain ⟨⟨d, _, hd⟩, h2, h3⟩ :=
      writes_mem fuel (i * 2) s ((s + e) / 2 - 1) (by omega) w hw
    exact ⟨⟨d, hd⟩, h2, by omega⟩
  · simp at hw

theorem writes_right_mem (fuel i s e : Nat) (w : Nat × Nat)
    (hw : w ∈ (if (s + e) / 2 < e then
      recursive_prepare_writes fuel (i * 2 + 1) ((s + e) / 2 + 1) e else [])) :
    (∃ d, w.1 / 2 ^ d = i * 2 + 1) ∧ (s + e) / 2 < w.2 ∧ w.2 ≤ e := by
  split at hw
  · obtain ⟨⟨d, _, hd⟩, h2, h3⟩ :=
      writes_mem fuel (i * 2 + 1) ((s + e) / 2 + 1) e (by omega) w hw
    exact ⟨⟨d, hd⟩, by omega, h3⟩
  · simp at hw

theorem writes_nodup (fuel : Nat) : ∀ (i s e : Nat), 1 ≤ i → s ≤ e →
    ((recursive_prepare_writes fuel i s e).map Prod.fst).Nodup := by
  induction fuel with
  | zero => intro i s e _ _; simp [recursive_prepare_writes]
  | succ f ih =>
    intro i s e hi hse
    rw [recursive_prepare_writes, List.map_cons, List.map_append, List.nodup_cons,
      List.nodup_append]
    refine ⟨?_, ?_, ?_, ?_⟩
    · intro hmem
      rcases List.mem_append.mp hmem with h | h
      · obtain ⟨w, hw, hwi⟩ := List.mem_map.mp h
        obtain ⟨⟨d, hd⟩, _, _⟩ := writes_left_mem f i s e w hw
        have := Nat.div_le_self w.1 (2 ^ d)
        simp only at hwi
        omega
      · obtain ⟨w, hw, hwi⟩ := List.mem_map.mp h
        obtain ⟨⟨d, hd⟩, _, _⟩ := writes_right_mem f i s e w hw
        have := Nat.div_le_self w.1 (2 ^ d)
        simp only at hwi
        omega
    · split
      · exact ih _ _ _ (by omega) (by omega)
      · simp
    · split
      · exact ih _ _ _ (by omega) (by omega)
      · simp
    · intro j hl hr
      obtain ⟨w, hw, hwj⟩ := List.mem_map.mp hl
      obtain ⟨w', hw', hwj'⟩ := List.mem_map.mp hr
      obtain ⟨⟨d, hd⟩, _, _⟩ := writes_left_mem f i s e w hw
      obtain ⟨⟨d', hd'⟩, _, _⟩ := writes_right_mem f i s e w' hw'
      rw [hwj] at hd
      rw [hwj'] at hd'
      exact sub_disjoint i j d d' hi hd hd'

theorem writes_root_lt (fuel n k : Nat) (hn : 0 < n) (hk : n < 2 ^ k) :
    ∀ w ∈ recursive_prepare_writes fuel 1 0 (n - 1), 1 ≤ w.1 ∧ w.1 < 2 ^ k := by
  intro w hw
  obtain ⟨⟨d, hd1, hd2⟩, _, _⟩ := writes_mem fuel 1 0 (n - 1) (by omega) w hw
  have hpos : 0 < 2 ^ d := Nat.pos_pow_of_pos d (by decide)
  have hle := Nat.div_le_self w.1 (2 ^ d)
  refine ⟨by omega, ?_⟩
  have hdk : d < k := by
    by_contra hcon
    have : 2 ^ k ≤ 2 ^ d := Nat.pow_le_pow_right (by decide) (by omega)
    omega
  have h1 : w.1 < 2 ^ d * 2 := by
    have := Nat.lt_succ_iff.mpr (le_of_eq hd2)
    rw [Nat.div_lt_iff_lt_mul hpos] at this
    calc w.1 < (1 + 1) * 2 ^ d := this
      _ = 2 ^ d * 2 := by ring
  have h2 : 2 ^ (d + 1) ≤ 2 ^ k := Nat.pow_le_pow_right (by decide) (by omega)
  rw [pow_succ] at h2
  omega

/-! ## The state after `prepare` -/

theorem prepare_eq {α : Type} (fuel : Nat) (t : BinarySearchArray α) (a : List α) (n : Nat)
    (hn : 0 < n) (hna : n ≤ a.length) (hf : n < fuel) :
    ∃ k, 0 < k ∧ 2 ^ (k - 1) ≤ n ∧ n < 2 ^ k ∧ prepare_size fuel 1 n = some (2 ^ k) ∧
      prepare fuel t (some a) n =
        (.ok (),
          { t with tree_ := (apply_writes a (List.replicate (2 ^ k) t.invalid_)
              (recursive_prepare_writes fuel 1 0 (n - 1))) }) := by
  obtain ⟨k, hk, hsz, hlo, hhi⟩ := prepare_size_one fuel n hn hf
  refine ⟨k, hk, hlo, hhi, hsz, ?_⟩
  have hne : n ≠ 0 := by omega
  simp only [prepare, hne, if_false, hsz, vector_clear, vector_resize, List.take_nil,
    List.length_nil, Nat.sub_zero, List.nil_append]
  rw [recursive_prepare_eq a fuel 1 0 (n - 1) _ (by omega) (by omega) (by omega)]
  intro w hw
  simpa using (writes_root_lt fuel n k hn hhi w hw).2

theorem writes_fuel_irrelevant (f : Nat) : ∀ (f' i s e : Nat), s ≤ e → e - s < f → e - s < f' →
    recursive_prepare_writes f i s e = recursive_prepare_writes f' i s e := by
  induction f with
  | zero => intro f' i s e _ h; omega
  | succ f ih =>
    intro f' i s e hse hf hf'
    rcases f' with _ | f'
    · omega
    · rw [recursive_prepare_writes, recursive_prepare_writes]
      congr 2
      · split
        · exact ih f' _ _ _ (by omega) (by omega) (by omega)
        · rfl
      · split
        · exact ih f' _ _ _ (by omega) (by omega) (by omega)
        · rfl

/-! ## The search loop -/

theorem search_loop_some {α : Type} [DecidableEq α] (tree : List α) (invalid : α)
    (compare : α → α → Int) (data : α) (fuel i : Nat) (x : α) (hx : tree[i]? = some x) :
    search_loop tree invalid compare data (fuel + 1) i =
      if x ≠ invalid then
        if compare data x < 0 then search_loop tree invalid compare data fuel (i * 2)
        else if 0 < compare data x then search_loop tree invalid compare data fuel (i * 2 + 1)
        else .ok i
      else .ok 0 := by
  obtain ⟨hi, hxi⟩ := List.getElem?_eq_some.mp hx
  rw [search_loop, dif_pos hi, hxi]

theorem search_loop_none {α : Type} [DecidableEq α] (tree : List α) (invalid : α)
    (compare : α → α → Int) (data : α) (fuel i : Nat) (hx : tree[i]? = none) :
    search_loop tree invalid compare data (fuel + 1) i = .ok 0 := by
  have hi : ¬ i < tree.length := by
    rw [List.getElem?_eq_none_iff] at hx
    omega
  rw [search_loop, dif_neg hi]

theorem search_loop_sound {α : Type} [DecidableEq α] (tree : List α) (invalid : α)
    (compare : α → α → Int) (data : α) (fuel : Nat) :
    ∀ i r : Nat, search_loop tree invalid compare data fuel i = .ok r → r ≠ 0 →
      ∃ x, tree[r]? = some x ∧ x ≠ invalid ∧ compare data x = 0 := by
  induction fuel with
  | zero => intro i r h; simp [search_loop] at h
  | succ f ih =>
    intro i r h hr
    rcases hx : tree[i]? with _ | x
    · rw [search_loop_none _ _ _ _ _ _ hx] at h
      injection h with h
      exact absurd h.symm hr
    · rw [search_loop_some _ _ _ _ _ _ x hx] at h
      by_cases hxi : x = invalid
      · rw [if_neg (not_not.mpr hxi)] at h
        injection h with h
        exact absurd h.symm hr
      · rw [if_pos hxi] at h
        by_cases h1 : compare data x < 0
        · rw [if_pos h1] at h
          exact ih _ r h hr
        · rw [if_neg h1] at h
          by_cases h2 : 0 < compare data x
          · rw [if_pos h2] at h
            exact ih _ r h hr
          · rw [if_neg h2] at h
            injection h with h
            subst h
            exact ⟨x, hx, hxi, by omega⟩

theorem search_loop_total {α : Type} [DecidableEq α] (tree : List α) (invalid : α)
    (compare : α → α → Int) (data : α) (fuel : Nat) :
    ∀ i : Nat, 1 ≤ i → 0 < fuel → tree.length ≤ i * 2 ^ (fuel - 1) →
      ∃ r, search_loop tree invalid compare data fuel i = .ok r := by
  induction fuel with
  | zero => intro i _ h; omega
  | succ f ih =>
    intro i hi _ hlen
    rcases hx : tree[i]? with _ | x
    · exact ⟨0, search_loop_none _ _ _ _ _ _ hx⟩
    · rw [search_loop_some _ _ _ _ _ _ x hx]
      obtain ⟨hil, _⟩ := List.getElem?_eq_some.mp hx
      simp only [Nat.add_sub_cancel] at hlen
      have hf : 0 < f := by
        rcases f with _ | f
        · simp at hlen
          omega
        · omega
      have hpow : 2 ^ f = 2 * 2 ^ (f - 1) := by
        obtain ⟨m, rfl⟩ : ∃ m, f = m + 1 := ⟨f - 1, by omega⟩
        rw [pow_succ]
        simp only [Nat.add_sub_cancel]
        ring
      have hl2 : tree.length ≤ i * 2 * 2 ^ (f - 1) := by
        calc tree.length ≤ i * 2 ^ f := hlen
          _ = i * 2 * 2 ^ (f - 1) := by rw [hpow]; ring
      have hl3 : tree.length ≤ (i * 2 + 1) * 2 ^ (f - 1) :=
        le_trans hl2 (Nat.mul_le_mul_right _ (by omega))
      split
      · split
        · exact ih _ (by omega) hf hl2
        · split
          · exact ih _ (by omega) hf hl3
          · exact ⟨i, rfl⟩
      · exact ⟨0, rfl⟩

theorem sorted_getElem?_lt {α : Type} [LinearOrder α] (input : List α)
    (hs : input.Pairwise (fun a b => a < b)) (p q : Nat) (x y : α) (hpq : p < q)
    (hx : input[p]? = some x) (hy : input[q]? = some y) : x < y := by
  obtain ⟨hp, rfl⟩ := List.getElem?_eq_some.mp hx
  obtain ⟨hq, rfl⟩ := List.getElem?_eq_some.mp hy
  exact List.pairwise_iff_getElem.mp hs p q hp hq hpq

theorem search_loop_found {α : Type} [LinearOrder α] (input tree : List α) (invalid : α)
    (compare : α → α → Int) (hcmp : ThreeWay compare)
    (hs : input.Pairwise (fun a b => a < b)) (hinv : invalid ∉ input) (f : Nat) :
    ∀ (i s e p g : Nat) (x : α), s ≤ p → p ≤ e → e < input.length → e - s < f → f ≤ g →
      input[p]? = some x →
      (∀ w ∈ recursive_prepare_writes f i s e, tree[w.1]? = input[w.2]?) →
      ∃ j, i ≤ j ∧ search_loop tree invalid compare x g i = .ok j ∧ tree[j]? = some x := by
  induction f with
  | zero => intro i s e p g x _ _ _ h; omega
  | succ f ih =>
    intro i s e p g x hsp hpe he hf hg hx hw
    obtain ⟨g, rfl⟩ : ∃ g', g = g' + 1 := ⟨g - 1, by omega⟩
    have hc : (s + e) / 2 < input.length := by omega
    have hy : input[(s + e) / 2]? = some input[(s + e) / 2] := List.getElem?_eq_getElem hc
    have hroot : tree[i]? = some input[(s + e) / 2] := by
      rw [← hy]
      exact hw (i, (s + e) / 2) (by simp [recursive_prepare_writes])
    have hne : input[(s + e) / 2] ≠ invalid := by
      intro h
      exact hinv (h ▸ List.getElem_mem _)
    rw [search_loop_some _ _ _ _ _ _ _ hroot, if_pos hne]
    rcases Nat.lt_trichotomy p ((s + e) / 2) with hlt | heq | hgt
    · have hxy := sorted_getElem?_lt input hs p _ x _ hlt hx hy
      rw [if_pos ((hcmp x _).1 hxy)]
      obtain ⟨j, hj1, hj2, hj3⟩ := ih (i * 2) s ((s + e) / 2 - 1) p g x hsp (by omega)
        (by omega) (by omega) (by omega) hx
        (fun w hw' => hw w (by
          rw [recursive_prepare_writes, if_pos (by omega)]
          simp [hw']))
      exact ⟨j, by omega, hj2, hj3⟩
    · subst heq
      rw [hx] at hy
      injection hy with hy
      have h0 := (hcmp x input[(s + e) / 2]).2.1 hy
      rw [if_neg (by omega), if_neg (by omega)]
      exact ⟨i, le_refl i, rfl, by rw [hroot, hy]⟩
    · have hxy := sorted_getElem?_lt input hs _ p _ x hgt hy hx
      have hpos := (hcmp x _).2.2 hxy
      rw [if_neg (by omega), if_pos hpos]
      obtain ⟨j, hj1, hj2, hj3⟩ := ih (i * 2 + 1) ((s + e) / 2 + 1) e p g x (by omega) hpe
        he (by omega) (by omega) hx
        (fun w hw' => hw w (by
          rw [recursive_prepare_writes, if_pos (by omega : (s + e) / 2 < e)]
          simp [hw']))
      exact ⟨j, by omega, hj2, hj3⟩

theorem get_of_getElem? {α : Type} (t : BinarySearchArray α) (i : Nat) (x : α)
    (hi : 0 < i) (hx : t.tree_[i]? = some x) : get t i = .ok x := by
  obtain ⟨hil, hxi⟩ := List.getElem?_eq_some.mp hx
  rw [BinarySearchArray.get, if_pos hi, dif_pos hil, hxi]

theorem prepared_content {α : Type} (fuel : Nat) (a : List α) (invalid : α) (n k : Nat)
    (hn : 0 < n) (hna : n ≤ a.length) (hk : n < 2 ^ k) :
    ∀ w ∈ recursive_prepare_writes fuel 1 0 (n - 1),
      (apply_writes a (List.replicate (2 ^ k) invalid)
        (recursive_prepare_writes fuel 1 0 (n - 1)))[w.1]? = a[w.2]? := by
  intro w hw
  apply apply_writes_content a _ _ (writes_nodup fuel 1 0 (n - 1) (le_refl 1) (by omega))
    w hw
  · simpa using (writes_root_lt fuel n k hn hk w hw).2
  · have := (writes_mem fuel 1 0 (n - 1) (by omega) w hw).2.2
    omega

theorem pow_pred_lt (k n : Nat) (hk : 0 < k) (h : 2 ^ (k - 1) ≤ n) : k ≤ n := by
  have := Nat.lt_two_pow (k - 1)
  omega

theorem threeWay_eq {α : Type} [LinearOrder α] (compare : α → α → Int) (hcmp : ThreeWay compare)
    (a b : α) (h : compare a b = 0) : a = b := by
  rcases lt_trichotomy a b with h1 | h1 | h1
  · have := (hcmp a b).1 h1
    omega
  · exact h1
  · have := (hcmp a b).2.2 h1
    omega

theorem Demo.compare_threeWay : ThreeWay Demo.compare := by
  intro a b
  unfold Demo.compare
  refine ⟨?_, ?_, ?_⟩ <;> intro h <;> split_ifs <;> omega

theorem div_pow_trans (j m r d a : Nat) (h1 : j / 2 ^ d = m) (h2 : m / 2 ^ a = r) :
    j / 2 ^ (d + a) = r := by
  rw [pow_add, ← Nat.div_div_eq_div_mul, h1, h2]

theorem not_below_self (i m d : Nat) (hi : 1 ≤ i) (hm : i ≤ m) (h : i / 2 ^ (d + 1) = m) :
    False := by
  have h1 := div_pow_antitone i 1 (d + 1) (by omega)
  rw [pow_one] at h1
  omega

theorem writes_cases (f i s e : Nat) (w : Nat × Nat)
    (hw : w ∈ recursive_prepare_writes (f + 1) i s e) :
    w = (i, (s + e) / 2) ∨
    (s < (s + e) / 2 ∧ w ∈ recursive_prepare_writes f (i * 2) s ((s + e) / 2 - 1)) ∨
    ((s + e) / 2 < e ∧ w ∈ recursive_prepare_writes f (i * 2 + 1) ((s + e) / 2 + 1) e) := by
  rw [recursive_prepare_writes, List.mem_cons, List.mem_append] at hw
  rcases hw with h | h | h
  · exact Or.inl h
  · split at h
    · rename_i hc
      exact Or.inr (Or.inl ⟨hc, h⟩)
    · simp at h
  · split at h
    · rename_i hc
      exact Or.inr (Or.inr ⟨hc, h⟩)
    · simp at h

theorem writes_ordered (f : Nat) : ∀ (i s e : Nat), 1 ≤ i → s ≤ e →
    ∀ w ∈ recursive_prepare_writes f i s e, ∀ w' ∈ recursive_prepare_writes f i s e,
      ∀ d, (w'.1 / 2 ^ d = w.1 * 2 → w'.2 < w.2) ∧
        (w'.1 / 2 ^ d = w.1 * 2 + 1 → w.2 < w'.2) := by
  induction f with
  | zero => intro i s e _ _ w hw; simp [recursive_prepare_writes] at hw
  | succ f ih =>
    intro i s e hi hse w hw w' hw' d
    have hbelow : (w'.1 / 2 ^ d = w.1 * 2 ∨ w'.1 / 2 ^ d = w.1 * 2 + 1) →
        w'.1 / 2 ^ (d + 1) = w.1 := by
      intro h
      rw [div_pow_succ]
      omega
    rcases writes_cases f i s e w hw with h | ⟨hc, h⟩ | ⟨hc, h⟩ <;>
      rcases writes_cases f i s e w' hw' with h' | ⟨hc', h'⟩ | ⟨hc', h'⟩
    · subst h h'
      constructor <;> intro hd <;> exfalso
      · exact not_below_self i i d hi (le_refl i) (hbelow (Or.inl hd))
      · exact not_below_self i i d hi (le_refl i) (hbelow (Or.inr hd))
    · subst h
      obtain ⟨⟨a, _, ha⟩, _, h3⟩ := writes_mem f _ _ _ (by omega) w' h'
      constructor <;> intro hd
      · simp only
        omega
      · exact (sub_disjoint i w'.1 a d hi ha hd).elim
    · subst h
      obtain ⟨⟨a, _, ha⟩, h2, _⟩ := writes_mem f _ _ _ (by omega) w' h'
      constructor <;> intro hd
      · exact (sub_disjoint i w'.1 d a hi hd ha).elim
      · simp only
        omega
    · subst h'
      obtain ⟨⟨a, _, ha⟩, _, _⟩ := writes_mem f _ _ _ (by omega) w h
      have := Nat.div_le_self w.1 (2 ^ a)
      constructor <;> intro hd <;> exfalso
      · exact not_below_self i w.1 d hi (by omega) (hbelow (Or.inl hd))
      · exact not_below_self i w.1 d hi (by omega) (hbelow (Or.inr hd))
    · exact ih _ _ _ (by omega) (by omega) w h w' h' d
    · obtain ⟨⟨a, _, ha⟩, _, _⟩ := writes_mem f _ _ _ (by omega) w h
      obtain ⟨⟨b, _, hb⟩, _, _⟩ := writes_mem f _ _ _ (by omega) w' h'
      constructor <;> intro hd <;> exfalso
      · exact sub_disjoint i w'.1 _ b hi (div_pow_trans _ _ _ _ a (hbelow (Or.inl hd)) ha) hb
      · exact sub_disjoint i w'.1 _ b hi (div_pow_trans _ _ _ _ a (hbelow (Or.inr hd)) ha) hb
    · subst h'
      obtain ⟨⟨a, _, ha⟩, _, _⟩ := writes_mem f _ _ _ (by omega) w h
      have := Nat.div_le_self w.1 (2 ^ a)
      constructor <;> intro hd <;> exfalso
      · exact not_below_self i w.1 d hi (by omega) (hbelow (Or.inl hd))
      · exact not_below_self i w.1 d hi (by omega) (hbelow (Or.inr hd))
    · obtain ⟨⟨a, _, ha⟩, _, _⟩ := writes_mem f _ _ _ (by omega) w h
      obtain ⟨⟨b, _, hb⟩, _, _⟩ := writes_mem f _ _ _ (by omega) w' h'
      constructor <;> intro hd <;> exfalso
      · exact sub_disjoint i w'.1 b _ hi hb (div_pow_trans _ _ _ _ a (hbelow (Or.inl hd)) ha)
      · exact sub_disjoint i w'.1 b _ hi hb (div_pow_trans _ _ _ _ a (hbelow (Or.inr hd)) ha)
    · exact ih _ _ _ (by omega) (by omega) w h w' h' d

/-! ## The claims -/

/-- C1, round-trip membership: for an input of length `n ≥ 1` that is strictly ascending
(hence duplicate-free) and does not contain the sentinel, and a comparator that is
negative, zero or positive for smaller, equal or larger, `prepare(input, n)` returns and
afterwards `search(x)` returns, for every element `x` of the input, a non-zero index `i`
with `get(i) == x`. -/
theorem round_trip_membership {α : Type} [LinearOrder α] (t : BinarySearchArray α)
    (compare : α → α → Int) (input : List α) (fuel fuel' : Nat) (x : α)
    (hn : 1 ≤ input.length) (hsorted : input.Pairwise (fun a b => a < b))
    (hinv : t.invalid_ ∉ input) (hcmp : ThreeWay compare) (ht : t.compare_ = some compare)
    (hf : input.length < fuel) (hf' : input.length < fuel') (hx : x ∈ input) :
    (prepare fuel t (some input) input.length).1 = .ok () ∧
    ∃ i, search fuel' (prepare fuel t (some input) input.length).2 x = .ok i ∧ i ≠ 0 ∧
      get (prepare fuel t (some input) input.length).2 i = .ok x := by
  obtain ⟨k, hk, hlo, hhi, _, hp⟩ := prepare_eq fuel t input input.length hn (le_refl _) hf
  rw [hp]
  refine ⟨rfl, ?_⟩
  obtain ⟨p, hp', hxp⟩ := List.getElem_of_mem hx
  have hxp' : input[p]? = some x := by rw [List.getElem?_eq_getElem hp', hxp]
  have hcontent := prepared_content fuel input t.invalid_ input.length k hn (le_refl _) hhi
  rw [writes_fuel_irrelevant fuel input.length 1 0 (input.length - 1) (by omega) (by omega)
    (by omega)] at hcontent
  obtain ⟨j, hj1, hj2, hj3⟩ := search_loop_found input _ t.invalid_ compare hcmp hsorted hinv
    input.length 1 0 (input.length - 1) p fuel' x (by omega) (by omega) (by omega) (by omega)
    (by omega) hxp' hcontent
  refine ⟨j, ?_, by omega, ?_⟩
  · simp only [search, ht]
    rw [writes_fuel_irrelevant fuel input.length 1 0 (input.length - 1) (by omega) (by omega)
      (by omega)]
    exact hj2
  · apply get_of_getElem? _ j x (by omega)
    simp only
    rw [writes_fuel_irrelevant fuel input.length 1 0 (input.length - 1) (by omega) (by omega)
      (by omega)]
    exact hj3

/-- Witness of C1 on the first array of the driver: after building `[0..6]` the key `5` is
found at a non-zero index whose slot holds `5`. -/
theorem round_trip_membership_witness :
    (prepare 8 (new Demo.INT_MIN (some Demo.compare)) (some Demo.data_1)
      Demo.data_1.length).1 = .ok () ∧
    ∃ i, search 8 (prepare 8 (new Demo.INT_MIN (some Demo.compare)) (some Demo.data_1)
        Demo.data_1.length).2 Demo.key = .ok i ∧ i ≠ 0 ∧
      get (prepare 8 (new Demo.INT_MIN (some Demo.compare)) (some Demo.data_1)
        Demo.data_1.length).2 i = .ok Demo.key :=
  round_trip_membership (new Demo.INT_MIN (some Demo.compare)) Demo.compare Demo.data_1 8 8
    Demo.key (by decide) (by decide) (by decide) Demo.compare_threeWay rfl (by decide)
    (by decide) (by decide)

/-- C2, negative membership: after `prepare` on an input of length `n ≥ 1`, with a
comparator that is negative, zero or positive for smaller, equal or larger, `search(q)`
returns `0` for every query `q` that is not present in the input.  Neither the ordering
of the input nor `q` being different from the sentinel is needed for this. -/
theorem negative_membership {α : Type} [LinearOrder α] (t : BinarySearchArray α)
    (compare : α → α → Int) (input : List α) (fuel fuel' : Nat) (q : α)
    (hn : 1 ≤ input.length) (hcmp : ThreeWay compare) (ht : t.compare_ = some compare)
    (hf : input.length < fuel) (hf' : input.length < fuel') (hq : q ∉ input) :
    (prepare fuel t (some input) input.length).1 = .ok () ∧
    search fuel' (prepare fuel t (some input) input.length).2 q = .ok 0 := by
  obtain ⟨k, hk, hlo, hhi, _, hp⟩ := prepare_eq fuel t input input.length hn (le_refl _) hf
  rw [hp]
  refine ⟨rfl, ?_⟩
  simp only [search, ht]
  have hkn : k ≤ input.length := pow_pred_lt k input.length hk hlo
  obtain ⟨r, hr⟩ := search_loop_total
    (apply_writes input (List.replicate (2 ^ k) t.invalid_)
      (recursive_prepare_writes fuel 1 0 (input.length - 1)))
    t.invalid_ compare q fuel' 1 (le_refl 1) (by omega)
    (by
      rw [apply_writes_length, List.length_replicate, one_mul]
      exact Nat.pow_le_pow_right (by decide) (by omega))
  rw [hr]
  by_cases hr0 : r = 0
  · rw [hr0]
  · exfalso
    obtain ⟨x, hx1, hx2, hx3⟩ := search_loop_sound _ _ _ _ _ _ _ hr hr0
    have hqx := threeWay_eq compare hcmp q x hx3
    rcases apply_writes_mem input _ _ x (List.getElem?_mem hx1) with h | h
    · exact hx2 (List.eq_of_mem_replicate h)
    · exact hq (hqx ▸ h)

/-- Witness of C2 on the two scenarios of the specification: after building `[7..15]`
the key `5` is not found, and after building `[0..6]` the value `-1` is not found. -/
theorem negative_membership_witness :
    ((prepare 10 (new Demo.INT_MIN (some Demo.compare)) (some Demo.data_2)
        Demo.data_2.length).1 = .ok () ∧
      search 10 (prepare 10 (new Demo.INT_MIN (some Demo.compare)) (some Demo.data_2)
        Demo.data_2.length).2 Demo.key = .ok 0) ∧
    ((prepare 8 (new Demo.INT_MIN (some Demo.compare)) (some Demo.data_1)
        Demo.data_1.length).1 = .ok () ∧
      search 8 (prepare 8 (new Demo.INT_MIN (some Demo.compare)) (some Demo.data_1)
        Demo.data_1.length).2 (-1) = .ok 0) :=
  ⟨negative_membership (new Demo.INT_MIN (some Demo.compare)) Demo.compare Demo.data_2 10 10
      Demo.key (by decide) Demo.compare_threeWay rfl (by decide) (by decide) (by decide),
    negative_membership (new Demo.INT_MIN (some Demo.compare)) Demo.compare Demo.data_1 8 8
      (-1) (by decide) Demo.compare_threeWay rfl (by decide) (by decide) (by decide)⟩

/-- C3, capacity law: for every length `n ≥ 1`, `prepare(input, n)` returns and afterwards
`size()` is the smallest power of two strictly greater than `n`: `size() = 2^k` with
`2^(k-1) ≤ n < 2^k`, and every power of two above `n` is at least `size()`. -/
theorem capacity_law {α : Type} (t : BinarySearchArray α) (input : List α) (fuel n : Nat)
    (hn : 1 ≤ n) (hlen : n ≤ input.length) (hf : n < fuel) :
    (prepare fuel t (some input) n).1 = .ok () ∧
    ∃ k, 1 ≤ k ∧ size (prepare fuel t (some input) n).2 = 2 ^ k ∧
      2 ^ (k - 1) ≤ n ∧ n < 2 ^ k ∧ ∀ m, n < 2 ^ m → 2 ^ k ≤ 2 ^ m := by
  obtain ⟨k, hk, hlo, hhi, _, hp⟩ := prepare_eq fuel t input n hn hlen hf
  rw [hp]
  refine ⟨rfl, k, hk, ?_, hlo, hhi, ?_⟩
  · simp [size, apply_writes_length]
  · intro m hm
    apply Nat.pow_le_pow_right (by decide)
    by_contra hcon
    have : 2 ^ m ≤ 2 ^ (k - 1) := Nat.pow_le_pow_right (by decide) (by omega)
    omega

/-- Witness of C3 on the driver's first array, `n = 7`, together with the three capacities
named in the specification: 8 for `n = 7`, 16 for `n = 9` and 2 for `n = 1`. -/
theorem capacity_law_witness :
    ((prepare 8 (new Demo.INT_MIN (some Demo.compare)) (some Demo.data_1) 7).1 = .ok () ∧
      ∃ k, 1 ≤ k ∧ size (prepare 8 (new Demo.INT_MIN (some Demo.compare))
          (some Demo.data_1) 7).2 = 2 ^ k ∧
        2 ^ (k - 1) ≤ 7 ∧ 7 < 2 ^ k ∧ ∀ m, 7 < 2 ^ m → 2 ^ k ≤ 2 ^ m) ∧
    size (prepare 8 (new Demo.INT_MIN (some Demo.compare)) (some Demo.data_1) 7).2 = 8 ∧
    size (prepare 10 (new Demo.INT_MIN (some Demo.compare)) (some Demo.data_2) 9).2 = 16 ∧
    size (prepare 2 (new Demo.INT_MIN (some Demo.compare)) (some [42]) 1).2 = 2 :=
  ⟨capacity_law (new Demo.INT_MIN (some Demo.compare)) Demo.data_1 8 7 (by decide)
      (by decide) (by decide),
    by decide, by decide, by decide⟩

/-- C4, construction never writes out of bounds: for every length `n ≥ 1` the sizing loop
yields a capacity `2^k` with `2^(k-1) ≤ n < 2^k`, every tree index written by
`recursive_prepare(input, 1, 0, n - 1)` is at least 1 and below that capacity, the
call of `prepare` returns without a bounds fault, its tree is the sentinel-filled vector
with exactly those writes replayed, and slot 0 still holds the sentinel. -/
theorem construction_in_bounds {α : Type} (t : BinarySearchArray α) (input : List α)
    (fuel n : Nat) (hn : 1 ≤ n) (hlen : n ≤ input.length) (hf : n < fuel) :
    ∃ k, 1 ≤ k ∧ prepare_size fuel 1 n = some (2 ^ k) ∧ 2 ^ (k - 1) ≤ n ∧ n < 2 ^ k ∧
      (∀ w ∈ recursive_prepare_writes fuel 1 0 (n - 1), 1 ≤ w.1 ∧ w.1 < 2 ^ k) ∧
      (prepare fuel t (some input) n).1 = .ok () ∧
      (prepare fuel t (some input) n).2.tree_ =
        apply_writes input (List.replicate (2 ^ k) t.invalid_)
          (recursive_prepare_writes fuel 1 0 (n - 1)) ∧
      (prepare fuel t (some input) n).2.tree_[0]? = some t.invalid_ := by
  obtain ⟨k, hk, hlo, hhi, hsz, hp⟩ := prepare_eq fuel t input n hn hlen hf
  have hw := writes_root_lt fuel n k hn hhi
  refine ⟨k, hk, hsz, hlo, hhi, hw, ?_, ?_, ?_⟩
  · rw [hp]
  · rw [hp]
  · rw [hp]
    simp only
    rw [apply_writes_frame input _ 0 _ (fun w hw' => by have := (hw w hw').1; omega)]
    rw [List.getElem?_replicate]
    simp

/-- Witness of C4 on the driver's second array, of length 9. -/
theorem construction_in_bounds_witness :
    ∃ k, 1 ≤ k ∧ prepare_size 10 1 9 = some (2 ^ k) ∧ 2 ^ (k - 1) ≤ 9 ∧ 9 < 2 ^ k ∧
      (∀ w ∈ recursive_prepare_writes 10 1 0 (9 - 1), 1 ≤ w.1 ∧ w.1 < 2 ^ k) ∧
      (prepare 10 (new Demo.INT_MIN (some Demo.compare)) (some Demo.data_2) 9).1 = .ok () ∧
      (prepare 10 (new Demo.INT_MIN (some Demo.compare)) (some Demo.data_2) 9).2.tree_ =
        apply_writes Demo.data_2
          (List.replicate (2 ^ k) (new Demo.INT_MIN (some Demo.compare)).invalid_)
          (recursive_prepare_writes 10 1 0 (9 - 1)) ∧
      (prepare 10 (new Demo.INT_MIN (some Demo.compare)) (some Demo.data_2) 9).2.tree_[0]? =
        some (new Demo.INT_MIN (some Demo.compare)).invalid_ :=
  construction_in_bounds (new Demo.INT_MIN (some Demo.compare)) Demo.data_2 10 9 (by decide)
    (by decide) (by decide)

/-- C5, BST ordering: after `prepare` on a strictly ascending (hence duplicate-free) input,
with the supplied comparator negative, zero or positive for smaller, equal or larger, every
index `i` written by the build holds a value `get(i)`, and for every written index `j` in
the subtree rooted at `2i` the value `get(j)` compares smaller than `get(i)`, while for
every written index `j` in the subtree rooted at `2i + 1` it compares larger. -/
theorem bst_ordering {α : Type} [LinearOrder α] (t : BinarySearchArray α)
    (compare : α → α → Int) (input : List α) (fuel : Nat) (w w' : Nat × Nat)
    (hn : 1 ≤ input.length) (hsorted : input.Pairwise (fun a b => a < b))
    (hcmp : ThreeWay compare) (ht : t.compare_ = some compare) (hf : input.length < fuel)
    (hw : w ∈ recursive_prepare_writes fuel 1 0 (input.length - 1))
    (hw' : w' ∈ recursive_prepare_writes fuel 1 0 (input.length - 1)) :
    (prepare fuel t (some input) input.length).1 = .ok () ∧
    (prepare fuel t (some input) input.length).2.compare_ = some compare ∧
    ∃ v v', get (prepare fuel t (some input) input.length).2 w.1 = .ok v ∧
      get (prepare fuel t (some input) input.length).2 w'.1 = .ok v' ∧
      (inSubtree (2 * w.1) w'.1 → compare v' v < 0) ∧
      (inSubtree (2 * w.1 + 1) w'.1 → 0 < compare v' v) := by
  obtain ⟨k, hk, hlo, hhi, _, hp⟩ := prepare_eq fuel t input input.length hn (le_refl _) hf
  rw [hp]
  refine ⟨rfl, ht, ?_⟩
  have hcontent := prepared_content fuel input t.invalid_ input.length k hn (le_refl _) hhi
  have hb := writes_root_lt fuel input.length k hn hhi
  have hm := writes_mem fuel 1 0 (input.length - 1) (by omega)
  have h2 : w.2 < input.length := by have := (hm w hw).2.2; omega
  have h2' : w'.2 < input.length := by have := (hm w' hw').2.2; omega
  have hv : input[w.2]? = some input[w.2] := List.getElem?_eq_getElem h2
  have hv' : input[w'.2]? = some input[w'.2] := List.getElem?_eq_getElem h2'
  refine ⟨input[w.2], input[w'.2], ?_, ?_, ?_, ?_⟩
  · exact get_of_getElem? _ _ _ (hb w hw).1 ((hcontent w hw).trans hv)
  · exact get_of_getElem? _ _ _ (hb w' hw').1 ((hcontent w' hw').trans hv')
  · intro hsub
    obtain ⟨d, hd⟩ := (inSubtree_iff _ _).mp hsub
    have hlt := (writes_ordered fuel 1 0 (input.length - 1) (le_refl 1) (by omega) w hw w' hw'
      d).1 (by omega)
    exact (hcmp _ _).1 (sorted_getElem?_lt input hsorted _ _ _ _ hlt hv' hv)
  · intro hsub
    obtain ⟨d, hd⟩ := (inSubtree_iff _ _).mp hsub
    have hlt := (writes_ordered fuel 1 0 (input.length - 1) (le_refl 1) (by omega) w hw w' hw'
      d).2 (by omega)
    exact (hcmp _ _).2.2 (sorted_getElem?_lt input hsorted _ _ _ _ hlt hv hv')

/-- Witness of C5 on the driver's first array: the root, written from input position 3, and
the slot 5, written from input position 2, which lies in the subtree rooted at 2. -/
theorem bst_ordering_witness :
    (prepare 8 (new Demo.INT_MIN (some Demo.compare)) (some Demo.data_1)
      Demo.data_1.length).1 = .ok () ∧
    (prepare 8 (new Demo.INT_MIN (some Demo.compare)) (some Demo.data_1)
      Demo.data_1.length).2.compare_ = some Demo.compare ∧
    ∃ v v', get (prepare 8 (new Demo.INT_MIN (some Demo.compare)) (some Demo.data_1)
        Demo.data_1.length).2 (1, 3).1 = .ok v ∧
      get (prepare 8 (new Demo.INT_MIN (some Demo.compare)) (some Demo.data_1)
        Demo.data_1.length).2 (5, 2).1 = .ok v' ∧
      (inSubtree (2 * (1, 3).1) (5, 2).1 → Demo.compare v' v < 0) ∧
      (inSubtree (2 * (1, 3).1 + 1) (5, 2).1 → 0 < Demo.compare v' v) :=
  bst_ordering (new Demo.INT_MIN (some Demo.compare)) Demo.compare Demo.data_1 8 (1, 3) (5, 2)
    (by decide) (by decide) Demo.compare_threeWay rfl (by decide) (by decide) (by decide)

/-- C6, search soundness on any tree state: for every tree contents, comparator and query
`q`, if `search(q)` returns `i ≠ 0` then `1 ≤ i < size()`, `get(i)` returns a value that is
not the sentinel, and the comparator is zero on `q` and that value; nothing is assumed
about how the tree was filled.  With more fuel than `size()` the call does return. -/
theorem search_soundness {α : Type} [DecidableEq α] (t : BinarySearchArray α)
    (compare : α → α → Int) (q : α) (fuel fuel' i : Nat) (ht : t.compare_ = some compare)
    (hs : search fuel t q = .ok i) (hi : i ≠ 0) (hf : size t < fuel') :
    (1 ≤ i ∧ i < size t ∧ ∃ x, get t i = .ok x ∧ x ≠ t.invalid_ ∧ compare q x = 0) ∧
    ∃ r, search fuel' t q = .ok r := by
  simp only [search, ht] at hs ⊢
  obtain ⟨x, hx1, hx2, hx3⟩ := search_loop_sound _ _ _ _ _ _ _ hs hi
  obtain ⟨hil, _⟩ := List.getElem?_eq_some.mp hx1
  refine ⟨⟨by omega, hil, x, get_of_getElem? t i x (by omega) hx1, hx2, hx3⟩, ?_⟩
  apply search_loop_total _ _ _ _ fuel' 1 (le_refl 1) (by omega)
  have h1 := Nat.lt_two_pow (fuel' - 1)
  simp only [size] at hf
  omega

/-- Witness of C6 on a tree that no `prepare` produces: slots `[9, 4, 8, 7]` with
sentinel `0`, where the left child of the root is larger than the root and the query `7`
is found at index 3. -/
theorem search_soundness_witness :
    (1 ≤ 3 ∧ 3 < size (BinarySearchArray.mk [9, 4, 8, 7] 0 (some Demo.compare)) ∧
      ∃ x, get (BinarySearchArray.mk [9, 4, 8, 7] 0 (some Demo.compare)) 3 = .ok x ∧
        x ≠ (BinarySearchArray.mk [9, 4, 8, 7] 0 (some Demo.compare)).invalid_ ∧
        Demo.compare 7 x = 0) ∧
    ∃ r, search 5 (BinarySearchArray.mk [9, 4, 8, 7] 0 (some Demo.compare)) 7 = .ok r :=
  search_soundness (BinarySearchArray.mk [9, 4, 8, 7] 0 (some Demo.compare)) Demo.compare 7
    3 5 3 rfl (by decide) (by decide) (by decide)

theorem prepare_fresh {α : Type} (fuel : Nat) (t : BinarySearchArray α) (b : List α) (n : Nat)
    (hn : n ≠ 0) (hsz : prepare_size fuel 1 n ≠ none) :
    prepare fuel t (some b) n = prepare fuel (new t.invalid_ t.compare_) (some b) n := by
  simp only [prepare, if_neg hn]
  rcases h : prepare_size fuel 1 n with _ | l
  · exact absurd h hsz
  · rfl

/-- C7, rebuild discards the previous tree: for inputs `a` and `b` of length at least 1,
`prepare(a)` returns, and `prepare(b)` on the resulting instance gives exactly the outcome
and state that `prepare(b)` gives on a fresh instance constructed with the same sentinel
and comparator, and returns too. -/
theorem rebuild_discards {α : Type} (t : BinarySearchArray α) (a b : List α)
    (fuel fuel' : Nat) (ha : 1 ≤ a.length) (hb : 1 ≤ b.length) (hf : a.length < fuel)
    (hf' : b.length < fuel') :
    (prepare fuel t (some a) a.length).1 = .ok () ∧
    prepare fuel' (prepare fuel t (some a) a.length).2 (some b) b.length =
      prepare fuel' (new t.invalid_ t.compare_) (some b) b.length ∧
    (prepare fuel' (new t.invalid_ t.compare_) (some b) b.length).1 = .ok () := by
  obtain ⟨k, _, _, _, _, hp⟩ := prepare_eq fuel t a a.length ha (le_refl _) hf
  obtain ⟨k', _, _, _, hsz, hp'⟩ :=
    prepare_eq fuel' (new t.invalid_ t.compare_) b b.length hb (le_refl _) hf'
  refine ⟨by rw [hp], ?_, by rw [hp']⟩
  rw [hp, prepare_fresh fuel' _ b b.length (by omega) (by rw [hsz]; simp)]

/-- Witness of C7 on the driver's two arrays, built one after the other; after the second
build the key `5`, present only in the first array, is not found. -/
theorem rebuild_discards_witness :
    ((prepare 8 (new Demo.INT_MIN (some Demo.compare)) (some Demo.data_1)
        Demo.data_1.length).1 = .ok () ∧
      prepare 10 (prepare 8 (new Demo.INT_MIN (some Demo.compare)) (some Demo.data_1)
          Demo.data_1.length).2 (some Demo.data_2) Demo.data_2.length =
        prepare 10 (new (new Demo.INT_MIN (some Demo.compare)).invalid_
          (new Demo.INT_MIN (some Demo.compare)).compare_) (some Demo.data_2)
          Demo.data_2.length ∧
      (prepare 10 (new (new Demo.INT_MIN (some Demo.compare)).invalid_
        (new Demo.INT_MIN (some Demo.compare)).compare_) (some Demo.data_2)
        Demo.data_2.length).1 = .ok ()) ∧
    search 10 (prepare 10 (prepare 8 (new Demo.INT_MIN (some Demo.compare))
        (some Demo.data_1) Demo.data_1.length).2 (some Demo.data_2)
      Demo.data_2.length).2 Demo.key = .ok 0 :=
  ⟨rebuild_discards (new Demo.INT_MIN (some Demo.compare)) Demo.data_1 Demo.data_2 8 10
      (by decide) (by decide) (by decide) (by decide),
    by decide⟩

/-- C8, the contract of `get`: `get(i)` fails, with an assertion failure, if and only if
`i == 0` or `i >= size()`, and for every `i` with `0 < i < size()` it returns exactly the
value stored in slot `i`. -/
theorem get_contract {α : Type} (t : BinarySearchArray α) (i : Nat) :
    ((∃ f, get t i = .error f) ↔ (i = 0 ∨ size t ≤ i)) ∧
    (get t i = .error .assertion ↔ (i = 0 ∨ size t ≤ i)) ∧
    ((0 < i ∧ i < size t) → ∃ x, t.tree_[i]? = some x ∧ get t i = .ok x) := by
  unfold BinarySearchArray.get size
  by_cases h0 : 0 < i
  · by_cases hl : i < t.tree_.length
    · rw [if_pos h0, dif_pos hl]
      refine ⟨?_, ?_, ?_⟩
      · constructor
        · rintro ⟨f, hf⟩
          cases hf
        · intro h
          omega
      · constructor
        · intro hf
          cases hf
        · intro h
          omega
      · intro _
        exact ⟨t.tree_[i], List.getElem?_eq_getElem hl, rfl⟩
    · rw [if_pos h0, dif_neg hl]
      refine ⟨?_, ?_, ?_⟩
      · exact ⟨fun _ => Or.inr (by omega), fun _ => ⟨_, rfl⟩⟩
      · exact ⟨fun _ => Or.inr (by omega), fun _ => rfl⟩
      · intro h
        omega
  · rw [if_neg h0]
    refine ⟨?_, ?_, ?_⟩
    · exact ⟨fun _ => Or.inl (by omega), fun _ => ⟨_, rfl⟩⟩
    · exact ⟨fun _ => Or.inl (by omega), fun _ => rfl⟩
    · intro h
      omega

/-- Witness of C8 on the tree built from the driver's first array, of size 8: index 0 and
index 8 fail, index 3 returns the stored value `5`. -/
theorem get_contract_witness :
    (((∃ f, get (prepare 8 (new Demo.INT_MIN (some Demo.compare)) (some Demo.data_1) 7).2 3
          = .error f) ↔
        (3 = 0 ∨ size (prepare 8 (new Demo.INT_MIN (some Demo.compare))
          (some Demo.data_1) 7).2 ≤ 3)) ∧
      (get (prepare 8 (new Demo.INT_MIN (some Demo.compare)) (some Demo.data_1) 7).2 3
          = .error .assertion ↔
        (3 = 0 ∨ size (prepare 8 (new Demo.INT_MIN (some Demo.compare))
          (some Demo.data_1) 7).2 ≤ 3)) ∧
      ((0 < 3 ∧ 3 < size (prepare 8 (new Demo.INT_MIN (some Demo.compare))
          (some Demo.data_1) 7).2) →
        ∃ x, (prepare 8 (new Demo.INT_MIN (some Demo.compare))
            (some Demo.data_1) 7).2.tree_[3]? = some x ∧
          get (prepare 8 (new Demo.INT_MIN (some Demo.compare)) (some Demo.data_1) 7).2 3
            = .ok x)) ∧
    get (prepare 8 (new Demo.INT_MIN (some Demo.compare)) (some Demo.data_1) 7).2 3
      = .ok 5 ∧
    get (prepare 8 (new Demo.INT_MIN (some Demo.compare)) (some Demo.data_1) 7).2 0
      = .error .assertion ∧
    get (prepare 8 (new Demo.INT_MIN (some Demo.compare)) (some Demo.data_1) 7).2 8
      = .error .assertion :=
  ⟨get_contract (prepare 8 (new Demo.INT_MIN (some Demo.compare)) (some Demo.data_1) 7).2 3,
    by decide, by decide, by decide⟩

theorem recursive_prepare_no_assertion {α : Type} (input : List α) (fuel : Nat) :
    ∀ (i s e : Nat) (t : BinarySearchArray α),
      (recursive_prepare input fuel i s e t).1 ≠ .error .assertion := by
  induction fuel with
  | zero =>
    intro i s e t
    simp [recursive_prepare]
  | succ f ih =>
    intro i s e t
    rw [recursive_prepare]
    simp only
    split
    · simp
    · split
      · split
        · rename_i f' t2 heq
          intro hcon
          simp only at hcon
          injection hcon with hcon
          subst hcon
          split at heq
          · exact ih _ _ _ _ (by rw [heq])
          · cases heq
        · split
          · exact ih _ _ _ _
          · simp
      · simp

/-- C9, the precondition of `prepare`: `prepare` stops with an assertion failure if and
only if `length == 0` or the input pointer is null, and in that case the state of the
instance is exactly the state before the call; with a non-null input of at least `length`
elements, `length ≥ 1` and enough fuel the call returns. -/
theorem prepare_precondition {α : Type} (fuel : Nat) (t : BinarySearchArray α)
    (input : Option (List α)) (length : Nat) :
    ((prepare fuel t input length).1 = .error .assertion ↔ (length = 0 ∨ input = none)) ∧
    ((length = 0 ∨ input = none) → (prepare fuel t input length).2 = t) ∧
    (∀ a, input = some a → 1 ≤ length → length ≤ a.length → length < fuel →
      (prepare fuel t input length).1 = .ok ()) := by
  refine ⟨⟨?_, ?_⟩, ?_, ?_⟩
  · intro h
    rcases input with _ | a
    · exact Or.inr rfl
    · by_cases hl : length = 0
      · exact Or.inl hl
      · exfalso
        simp only [prepare, if_neg hl] at h
        rcases hsz : prepare_size fuel 1 length with _ | l
        · rw [hsz] at h
          cases h
        · rw [hsz] at h
          exact recursive_prepare_no_assertion a fuel _ _ _ _ h
  · intro h
    rcases input with _ | a
    · rfl
    · rcases h with h | h
      · simp [prepare, h]
      · cases h
  · intro h
    rcases input with _ | a
    · rfl
    · rcases h with h | h
      · simp [prepare, h]
      · cases h
  · intro a ha h1 h2 h3
    subst ha
    obtain ⟨k, _, _, _, _, hp⟩ := prepare_eq fuel t a length h1 h2 h3
    rw [hp]

/-- Witness of C9 on the instance built from the driver's first array: a call with
`length == 0` and a call with a null input both stop with an assertion failure and leave
the tree as it was. -/
theorem prepare_precondition_witness :
    (((prepare 8 (prepare 8 (new Demo.INT_MIN (some Demo.compare)) (some Demo.data_1) 7).2
          (some Demo.data_2) 0).1 = .error .assertion ↔
        (0 = 0 ∨ some Demo.data_2 = none)) ∧
      ((0 = 0 ∨ some Demo.data_2 = none) →
        (prepare 8 (prepare 8 (new Demo.INT_MIN (some Demo.compare)) (some Demo.data_1) 7).2
          (some Demo.data_2) 0).2 =
        (prepare 8 (new Demo.INT_MIN (some Demo.compare)) (some Demo.data_1) 7).2) ∧
      (∀ a, some Demo.data_2 = some a → 1 ≤ 0 → 0 ≤ a.length → 0 < 8 →
        (prepare 8 (prepare 8 (new Demo.INT_MIN (some Demo.compare)) (some Demo.data_1) 7).2
          (some Demo.data_2) 0).1 = .ok ())) ∧
    (prepare 8 (prepare 8 (new Demo.INT_MIN (some Demo.compare)) (some Demo.data_1) 7).2
      (some Demo.data_2) 0).2.tree_ = [Demo.INT_MIN, 3, 1, 5, 0, 2, 4, 6] ∧
    (prepare 8 (prepare 8 (new Demo.INT_MIN (some Demo.compare)) (some Demo.data_1) 7).2
      none 9).1 = .error .assertion ∧
    (prepare 8 (prepare 8 (new Demo.INT_MIN (some Demo.compare)) (some Demo.data_1) 7).2
      none 9).2.tree_ = [Demo.INT_MIN, 3, 1, 5, 0, 2, 4, 6] :=
  ⟨prepare_precondition 8
      (prepare 8 (new Demo.INT_MIN (some Demo.compare)) (some Demo.data_1) 7).2
      (some Demo.data_2) 0,
    by decide, by decide, by decide⟩

/-- C10, the empty instance: on an instance that has been constructed, with a comparator,
but never prepared, `size()` returns 0 and `search(q)` returns 0 for every query `q`, and
the loop of `search` makes no call of the comparator. -/
theorem empty_instance {α : Type} [DecidableEq α] (invalid : α) (compare : α → α → Int)
    (q : α) (fuel : Nat) (hf : 1 ≤ fuel) :
    size (new invalid (some compare)) = 0 ∧
    search fuel (new invalid (some compare)) q = .ok 0 ∧
    search_loop_calls (new invalid (some compare)).tree_ invalid compare q fuel 1 = 0 := by
  obtain ⟨f, rfl⟩ : ∃ f, fuel = f + 1 := ⟨fuel - 1, by omega⟩
  refine ⟨rfl, ?_, ?_⟩
  · simp [search, new, search_loop]
  · simp [new, search_loop_calls]

/-- Witness of C10 on the instance the driver constructs, before its first `prepare`. -/
theorem empty_instance_witness :
    size (new Demo.INT_MIN (some Demo.compare)) = 0 ∧
    search 1 (new Demo.INT_MIN (some Demo.compare)) Demo.key = .ok 0 ∧
    search_loop_calls (new Demo.INT_MIN (some Demo.compare)).tree_ Demo.INT_MIN Demo.compare
      Demo.key 1 1 = 0 :=
  empty_instance Demo.INT_MIN Demo.compare Demo.key 1 (by decide)

theorem search_loop_calls_le {α : Type} [DecidableEq α] (tree : List α) (invalid : α)
    (compare : α → α → Int) (data : α) (fuel : Nat) :
    ∀ i m : Nat, 1 ≤ i → tree.length ≤ i * 2 ^ m →
      search_loop_calls tree invalid compare data fuel i ≤ m := by
  induction fuel with
  | zero => intro i m _ _; simp [search_loop_calls]
  | succ f ih =>
    intro i m hi hlen
    rw [search_loop_calls]
    split
    · rename_i hil
      obtain ⟨m, rfl⟩ : ∃ m', m = m' + 1 := by
        rcases m with _ | m
        · simp at hlen
          omega
        · exact ⟨m, rfl⟩
      have hl2 : tree.length ≤ i * 2 * 2 ^ m := by
        calc tree.length ≤ i * 2 ^ (m + 1) := hlen
          _ = i * 2 * 2 ^ m := by rw [pow_succ]; ring
      have hl3 : tree.length ≤ (i * 2 + 1) * 2 ^ m :=
        le_trans hl2 (Nat.mul_le_mul_right _ (by omega))
      split
      · simp only
        split
        · have := ih (i * 2) m (by omega) hl2
          omega
        · split
          · have := ih (i * 2 + 1) m (by omega) hl3
            omega
          · omega
      · omega
    · omega

theorem prepared_mem {α : Type} (input : List α) (invalid : α) (k : Nat)
    (ws : List (Nat × Nat)) (j : Nat) (x : α)
    (hx : (apply_writes input (List.replicate (2 ^ k) invalid) ws)[j]? = some x)
    (hne : x ≠ invalid) : x ∈ input := by
  rcases apply_writes_mem input ws _ x (List.getElem?_mem hx) with h | h
  · exact absurd (List.eq_of_mem_replicate h) hne
  · exact h

/-- C11, the sentinel is never found: after `prepare` on an input of length `n ≥ 1` none
of whose elements equals the sentinel or makes the comparator zero against it,
`search(invalid)` returns 0; and for every query `search` returns, and a non-zero result
is the index of a slot whose value is not the sentinel (0 is the not-found result). -/
theorem sentinel_never_found {α : Type} [DecidableEq α] (t : BinarySearchArray α)
    (compare : α → α → Int) (input : List α) (fuel fuel' : Nat) (q : α)
    (hn : 1 ≤ input.length) (ht : t.compare_ = some compare)
    (hinput : ∀ x ∈ input, x ≠ t.invalid_ ∧ compare t.invalid_ x ≠ 0)
    (hf : input.length < fuel) (hf' : input.length < fuel') :
    (prepare fuel t (some input) input.length).1 = .ok () ∧
    search fuel' (prepare fuel t (some input) input.length).2 t.invalid_ = .ok 0 ∧
    ∃ r, search fuel' (prepare fuel t (some input) input.length).2 q = .ok r ∧
      (r ≠ 0 → ∃ v, get (prepare fuel t (some input) input.length).2 r = .ok v ∧
        v ≠ t.invalid_) := by
  obtain ⟨k, hk, hlo, hhi, _, hp⟩ := prepare_eq fuel t input input.length hn (le_refl _) hf
  rw [hp]
  have hkn : k ≤ input.length := pow_pred_lt k input.length hk hlo
  have htotal : ∀ d : α, ∃ r, search_loop
      (apply_writes input (List.replicate (2 ^ k) t.invalid_)
        (recursive_prepare_writes fuel 1 0 (input.length - 1)))
      t.invalid_ compare d fuel' 1 = .ok r := fun d =>
    search_loop_total _ t.invalid_ compare d fuel' 1 (le_refl 1) (by omega)
      (by
        rw [apply_writes_length, List.length_replicate, one_mul]
        exact Nat.pow_le_pow_right (by decide) (by omega))
  refine ⟨rfl, ?_, ?_⟩
  · simp only [search, ht]
    obtain ⟨r, hr⟩ := htotal t.invalid_
    rw [hr]
    by_cases hr0 : r = 0
    · rw [hr0]
    · exfalso
      obtain ⟨x, hx1, hx2, hx3⟩ := search_loop_sound _ _ _ _ _ _ _ hr hr0
      exact (hinput x (prepared_mem input t.invalid_ k _ r x hx1 hx2)).2 hx3
  · simp only [search, ht]
    obtain ⟨r, hr⟩ := htotal q
    refine ⟨r, hr, fun hr0 => ?_⟩
    obtain ⟨x, hx1, hx2, _⟩ := search_loop_sound _ _ _ _ _ _ _ hr hr0
    exact ⟨x, get_of_getElem? _ r x (by omega) hx1, hx2⟩

/-- Witness of C11 on the driver's first array and sentinel `INT_MIN`, with the query
`5`. -/
theorem sentinel_never_found_witness :
    (prepare 8 (new Demo.INT_MIN (some Demo.compare)) (some Demo.data_1)
      Demo.data_1.length).1 = .ok () ∧
    search 8 (prepare 8 (new Demo.INT_MIN (some Demo.compare)) (some Demo.data_1)
      Demo.data_1.length).2 (new Demo.INT_MIN (some Demo.compare)).invalid_ = .ok 0 ∧
    ∃ r, search 8 (prepare 8 (new Demo.INT_MIN (some Demo.compare)) (some Demo.data_1)
        Demo.data_1.length).2 Demo.key = .ok r ∧
      (r ≠ 0 → ∃ v, get (prepare 8 (new Demo.INT_MIN (some Demo.compare))
          (some Demo.data_1) Demo.data_1.length).2 r = .ok v ∧
        v ≠ (new Demo.INT_MIN (some Demo.compare)).invalid_) :=
  sentinel_never_found (new Demo.INT_MIN (some Demo.compare)) Demo.compare Demo.data_1 8 8
    Demo.key (by decide) rfl (by decide) (by decide) (by decide)

/-- C13, logarithmic search: for every tree state, comparator and query, if `size()` is
at most `2^k` (in particular if it is `2^k`) then `search` returns and its loop calls the
comparator at most `k` times, whatever the fuel; when `size()` is 0 it makes no call. -/
theorem search_logarithmic {α : Type} [DecidableEq α] (t : BinarySearchArray α)
    (compare : α → α → Int) (q : α) (k fuel : Nat) (ht : t.compare_ = some compare)
    (hk : size t ≤ 2 ^ k) (hf : k < fuel) :
    (∃ r, search fuel t q = .ok r) ∧
    (∀ g, search_loop_calls t.tree_ t.invalid_ compare q g 1 ≤ k) ∧
    (size t = 0 → ∀ g, search_loop_calls t.tree_ t.invalid_ compare q g 1 = 0) := by
  simp only [size] at hk
  refine ⟨?_, ?_, ?_⟩
  · simp only [search, ht]
    apply search_loop_total _ _ _ _ fuel 1 (le_refl 1) (by omega)
    rw [one_mul]
    exact le_trans hk (Nat.pow_le_pow_right (by decide) (by omega))
  · intro g
    exact search_loop_calls_le _ _ _ _ g 1 k (le_refl 1) (by omega)
  · intro h0 g
    have := search_loop_calls_le t.tree_ t.invalid_ compare q g 1 0 (le_refl 1)
      (by simp only [size] at h0; omega)
    omega

/-- Witness of C13 on the tree built from the driver's second array, of size `2^4`: the
search for `10`, stored in the deepest slot 11, makes exactly 4 calls. -/
theorem search_logarithmic_witness :
    ((∃ r, search 5 (prepare 10 (new Demo.INT_MIN (some Demo.compare)) (some Demo.data_2)
        9).2 10 = .ok r) ∧
      (∀ g, search_loop_calls
        (prepare 10 (new Demo.INT_MIN (some Demo.compare)) (some Demo.data_2) 9).2.tree_
        (prepare 10 (new Demo.INT_MIN (some Demo.compare)) (some Demo.data_2) 9).2.invalid_
        Demo.compare 10 g 1 ≤ 4) ∧
      (size (prepare 10 (new Demo.INT_MIN (some Demo.compare)) (some Demo.data_2) 9).2 = 0 →
        ∀ g, search_loop_calls
          (prepare 10 (new Demo.INT_MIN (some Demo.compare)) (some Demo.data_2) 9).2.tree_
          (prepare 10 (new Demo.INT_MIN (some Demo.compare)) (some Demo.data_2) 9).2.invalid_
          Demo.compare 10 g 1 = 0)) ∧
    search 5 (prepare 10 (new Demo.INT_MIN (some Demo.compare)) (some Demo.data_2) 9).2 10
      = .ok 11 ∧
    search_loop_calls
      (prepare 10 (new Demo.INT_MIN (some Demo.compare)) (some Demo.data_2) 9).2.tree_
      Demo.INT_MIN Demo.compare 10 5 1 = 4 :=
  ⟨search_logarithmic (prepare 10 (new Demo.INT_MIN (some Demo.compare)) (some Demo.data_2)
      9).2 Demo.compare 10 4 5 rfl (by decide) (by decide),
    by decide, by decide⟩

theorem prepare_single {α : Type} (fuel : Nat) (t : BinarySearchArray α) (x : α)
    (hf : 1 < fuel) :
    prepare fuel t (some [x]) 1 = (.ok (), { t with tree_ := [t.invalid_, x] }) := by
  obtain ⟨f, rfl⟩ : ∃ f, fuel = f + 2 := ⟨fuel - 2, by omega⟩
  simp [prepare, prepare_size, vector_clear, vector_resize, recursive_prepare,
    List.replicate]

/-- C17, single-element boundary: for a one-element input `[x]` with `x` different from
the sentinel, and a comparator that is zero on `x` and `x`, after `prepare` `size()` is 2,
the only write of the build is to the root from input position 0, slot 0 holds the
sentinel and slot 1 holds `x`, `get(1)` returns `x` and `search(x)` returns 1. -/
theorem single_element {α : Type} [DecidableEq α] (t : BinarySearchArray α)
    (compare : α → α → Int) (x : α) (fuel fuel' : Nat) (ht : t.compare_ = some compare)
    (hx : x ≠ t.invalid_) (hcmp : compare x x = 0) (hf : 1 < fuel) (hf' : 1 ≤ fuel') :
    (prepare fuel t (some [x]) 1).1 = .ok () ∧
    size (prepare fuel t (some [x]) 1).2 = 2 ∧
    recursive_prepare_writes fuel 1 0 (1 - 1) = [(1, 0)] ∧
    (prepare fuel t (some [x]) 1).2.tree_ = [t.invalid_, x] ∧
    get (prepare fuel t (some [x]) 1).2 1 = .ok x ∧
    search fuel' (prepare fuel t (some [x]) 1).2 x = .ok 1 := by
  rw [prepare_single fuel t x hf]
  obtain ⟨f, rfl⟩ : ∃ f, fuel = f + 1 := ⟨fuel - 1, by omega⟩
  obtain ⟨g, rfl⟩ : ∃ g, fuel' = g + 1 := ⟨fuel' - 1, by omega⟩
  refine ⟨rfl, rfl, ?_, rfl, rfl, ?_⟩
  · simp [recursive_prepare_writes]
  · simp [search, ht, search_loop, hx, hcmp]

/-- Witness of C17 on the boundary scenario of the specification, the input `[42]`. -/
theorem single_element_witness :
    (prepare 2 (new Demo.INT_MIN (some Demo.compare)) (some [42]) 1).1 = .ok () ∧
    size (prepare 2 (new Demo.INT_MIN (some Demo.compare)) (some [42]) 1).2 = 2 ∧
    recursive_prepare_writes 2 1 0 (1 - 1) = [(1, 0)] ∧
    (prepare 2 (new Demo.INT_MIN (some Demo.compare)) (some [42]) 1).2.tree_ =
      [(new Demo.INT_MIN (some Demo.compare)).invalid_, 42] ∧
    get (prepare 2 (new Demo.INT_MIN (some Demo.compare)) (some [42]) 1).2 1 = .ok 42 ∧
    search 2 (prepare 2 (new Demo.INT_MIN (some Demo.compare)) (some [42]) 1).2 42 = .ok 1 :=
  single_element (new Demo.INT_MIN (some Demo.compare)) Demo.compare 42 2 2 rfl (by decide)
    (by decide) (by decide) (by decide)

/-! ## Counting the writes -/

theorem writes_snd_perm (f : Nat) : ∀ (i s e : Nat), s ≤ e → e - s < f →
    ((recursive_prepare_writes f i s e).map Prod.snd).Perm (List.range' s (e - s + 1)) := by
  induction f with
  | zero => intro i s e _ h; omega
  | succ f ih =>
    intro i s e hse hf
    rw [recursive_prepare_writes, List.map_cons, List.map_append]
    have hL : ((if s < (s + e) / 2 then
        recursive_prepare_writes f (i * 2) s ((s + e) / 2 - 1) else []).map Prod.snd).Perm
        (List.range' s ((s + e) / 2 - s)) := by
      split
      · rename_i hc
        have h := ih (i * 2) s ((s + e) / 2 - 1) (by omega) (by omega)
        have hlen : (s + e) / 2 - 1 - s + 1 = (s + e) / 2 - s := by omega
        rw [hlen] at h
        exact h
      · rename_i hc
        have hlen : (s + e) / 2 - s = 0 := by omega
        rw [hlen]
        simp
    have hR : ((if (s + e) / 2 < e then
        recursive_prepare_writes f (i * 2 + 1) ((s + e) / 2 + 1) e else []).map Prod.snd).Perm
        (List.range' ((s + e) / 2 + 1) (e - (s + e) / 2)) := by
      split
      · rename_i hc
        have h := ih (i * 2 + 1) ((s + e) / 2 + 1) e (by omega) (by omega)
        have hlen : e - ((s + e) / 2 + 1) + 1 = e - (s + e) / 2 := by omega
        rw [hlen] at h
        exact h
      · rename_i hc
        have hlen : e - (s + e) / 2 = 0 := by omega
        rw [hlen]
        simp
    have hsplit : List.range' s (e - s + 1) =
        List.range' s ((s + e) / 2 - s) ++
          (s + e) / 2 :: List.range' ((s + e) / 2 + 1) (e - (s + e) / 2) := by
      have h1 : e - s + 1 = ((e - (s + e) / 2) + 1) + ((s + e) / 2 - s) := by omega
      have h2 : s + ((s + e) / 2 - s) = (s + e) / 2 := by omega
      rw [h1, ← List.range'_append_1, h2, List.range'_succ]
    rw [hsplit]
    exact ((hL.append hR).cons _).trans List.perm_middle.symm

theorem writes_length (f i s e : Nat) (hse : s ≤ e) (hf : e - s < f) :
    (recursive_prepare_writes f i s e).length = e - s + 1 := by
  have h := (writes_snd_perm f i s e hse hf).length_eq
  simpa using h

theorem countP_set_sentinel {α : Type} [DecidableEq α] (invalid x : α) (hx : x ≠ invalid) :
    ∀ (tree : List α) (i : Nat), tree[i]? = some invalid →
      (tree.set i x).countP (fun v => decide (v ≠ invalid)) =
        tree.countP (fun v => decide (v ≠ invalid)) + 1 := by
  intro tree
  induction tree with
  | nil => intro i h; simp at h
  | cons a tree ih =>
    intro i h
    rcases i with _ | i
    · simp only [List.getElem?_cons_zero, Option.some.injEq] at h
      subst h
      simp [List.countP_cons, hx]
    · simp only [List.getElem?_cons_succ] at h
      simp only [List.set_cons_succ, List.countP_cons, ih i h]
      omega

theorem apply_writes_countP {α : Type} [DecidableEq α] (input : List α) (invalid : α)
    (ws : List (Nat × Nat)) :
    ∀ (tree : List α), (ws.map Prod.fst).Nodup →
      (∀ w ∈ ws, tree[w.1]? = some invalid ∧ ∃ x, input[w.2]? = some x ∧ x ≠ invalid) →
      (apply_writes input tree ws).countP (fun v => decide (v ≠ invalid)) =
        tree.countP (fun v => decide (v ≠ invalid)) + ws.length := by
  induction ws with
  | nil => intro tree _ _; rfl
  | cons w ws ih =>
    intro tree hnd h
    rw [List.map_cons, List.nodup_cons] at hnd
    obtain ⟨hw1, x, hx, hxne⟩ := h w (List.mem_cons_self _ _)
    rw [apply_writes, hx]
    simp only
    rw [ih _ hnd.2, countP_set_sentinel invalid x hxne tree w.1 hw1, List.length_cons]
    · omega
    · intro w' hw'
      obtain ⟨hw1', hrest⟩ := h w' (List.mem_cons_of_mem _ hw')
      refine ⟨?_, hrest⟩
      have hne : w.1 ≠ w'.1 := fun heq =>
        hnd.1 (heq ▸ List.mem_map_of_mem Prod.fst hw')
      rw [List.getElem?_set_ne hne]
      exact hw1'

theorem prepared_countP {α : Type} [DecidableEq α] (fuel : Nat) (input : List α) (invalid : α)
    (k : Nat) (hn : 0 < input.length) (hk : input.length < 2 ^ k) (hf : input.length < fuel)
    (hinv : invalid ∉ input) :
    (apply_writes input (List.replicate (2 ^ k) invalid)
      (recursive_prepare_writes fuel 1 0 (input.length - 1))).countP
        (fun v => decide (v ≠ invalid)) = input.length := by
  rw [apply_writes_countP input invalid _ _
    (writes_nodup fuel 1 0 (input.length - 1) (le_refl 1) (by omega))]
  · rw [writes_length fuel 1 0 (input.length - 1) (by omega) (by omega),
      List.countP_replicate]
    simp
    omega
  · intro w hw
    have hb := (writes_root_lt fuel input.length k hn hk w hw).2
    have h2 := (writes_mem fuel 1 0 (input.length - 1) (by omega) w hw).2.2
    have h2' : w.2 < input.length := by omega
    refine ⟨?_, input[w.2], List.getElem?_eq_getElem h2', ?_⟩
    · rw [List.getElem?_replicate]
      simp [hb]
    · intro h
      exact hinv (h ▸ List.getElem_mem _)

/-- C16, exactly `length` writes: for every input of length `n ≥ 1`,
`recursive_prepare(input, 1, 0, n - 1)` performs exactly `n` slot writes, their input
positions are a rearrangement of `0, ..., n - 1` (one write per position), no tree index is
written twice, `prepare` returns with exactly these writes replayed on the sentinel-filled
vector, and when no input element equals the sentinel exactly `n` slots of the tree are
not the sentinel. -/
theorem exactly_length_writes {α : Type} [DecidableEq α] (t : BinarySearchArray α)
    (input : List α) (fuel : Nat) (hn : 1 ≤ input.length) (hf : input.length < fuel) :
    (recursive_prepare_writes fuel 1 0 (input.length - 1)).length = input.length ∧
    ((recursive_prepare_writes fuel 1 0 (input.length - 1)).map Prod.snd).Perm
      (List.range input.length) ∧
    ((recursive_prepare_writes fuel 1 0 (input.length - 1)).map Prod.fst).Nodup ∧
    (prepare fuel t (some input) input.length).1 = .ok () ∧
    (prepare fuel t (some input) input.length).2.tree_ =
      apply_writes input (List.replicate (size (prepare fuel t (some input) input.length).2)
        t.invalid_) (recursive_prepare_writes fuel 1 0 (input.length - 1)) ∧
    (t.invalid_ ∉ input →
      (prepare fuel t (some input) input.length).2.tree_.countP
        (fun v => decide (v ≠ t.invalid_)) = input.length) := by
  obtain ⟨k, hk, hlo, hhi, _, hp⟩ := prepare_eq fuel t input input.length hn (le_refl _) hf
  rw [hp]
  have hperm := writes_snd_perm fuel 1 0 (input.length - 1) (by omega) (by omega)
  have hlen : input.length - 1 - 0 + 1 = input.length := by omega
  rw [hlen] at hperm
  refine ⟨?_, ?_, writes_nodup fuel 1 0 (input.length - 1) (le_refl 1) (by omega), rfl, ?_,
    ?_⟩
  · rw [writes_length fuel 1 0 (input.length - 1) (by omega) (by omega)]
    omega
  · rw [List.range_eq_range']
    exact hperm
  · simp [size, apply_writes_length]
  · intro hinv
    exact prepared_countP fuel input t.invalid_ k hn hhi hf hinv

/-- Witness of C16 on the driver's second array, of length 9. -/
theorem exactly_length_writes_witness :
    ((recursive_prepare_writes 10 1 0 (Demo.data_2.length - 1)).length = Demo.data_2.length ∧
      ((recursive_prepare_writes 10 1 0 (Demo.data_2.length - 1)).map Prod.snd).Perm
        (List.range Demo.data_2.length) ∧
      ((recursive_prepare_writes 10 1 0 (Demo.data_2.length - 1)).map Prod.fst).Nodup ∧
      (prepare 10 (new Demo.INT_MIN (some Demo.compare)) (some Demo.data_2)
        Demo.data_2.length).1 = .ok () ∧
      (prepare 10 (new Demo.INT_MIN (some Demo.compare)) (some Demo.data_2)
        Demo.data_2.length).2.tree_ =
        apply_writes Demo.data_2
          (List.replicate (size (prepare 10 (new Demo.INT_MIN (some Demo.compare))
            (some Demo.data_2) Demo.data_2.length).2)
            (new Demo.INT_MIN (some Demo.compare)).invalid_)
          (recursive_prepare_writes 10 1 0 (Demo.data_2.length - 1)) ∧
      ((new Demo.INT_MIN (some Demo.compare)).invalid_ ∉ Demo.data_2 →
        (prepare 10 (new Demo.INT_MIN (some Demo.compare)) (some Demo.data_2)
          Demo.data_2.length).2.tree_.countP
          (fun v => decide (v ≠ (new Demo.INT_MIN (some Demo.compare)).invalid_)) =
            Demo.data_2.length)) ∧
    recursive_prepare_writes 10 1 0 (Demo.data_2.length - 1) =
      [(1, 4), (2, 1), (4, 0), (5, 2), (11, 3), (3, 6), (6, 5), (7, 7), (15, 8)] :=
  ⟨exactly_length_writes (new Demo.INT_MIN (some Demo.compare)) Demo.data_2 10 (by decide)
      (by decide),
    by decide⟩

theorem countP_sentinel {α : Type} [DecidableEq α] (invalid : α) (tree : List α) :
    tree.countP (fun v => decide (v = invalid)) =
      tree.length - tree.countP (fun v => decide (v ≠ invalid)) := by
  induction tree with
  | nil => rfl
  | cons a tree ih =>
    have hle := List.countP_le_length (fun v => decide (v ≠ invalid)) (l := tree)
    by_cases h : a = invalid
    · simp [List.countP_cons, h] at ih hle ⊢
      omega
    · simp [List.countP_cons, h] at ih hle ⊢
      omega

/-- C14 as amended: after `prepare` on `n ≥ 1` elements none of which equals the sentinel,
a slot within the capacity holds the sentinel if and only if no write of the build goes to
its index, and the number of such slots, slot 0 included, is the capacity minus `n`. -/
theorem sentinel_slots_unwritten {α : Type} [DecidableEq α] (t : BinarySearchArray α)
    (input : List α) (fuel i : Nat) (hn : 1 ≤ input.length) (hinv : t.invalid_ ∉ input)
    (hf : input.length < fuel)
    (hi : i < size (prepare fuel t (some input) input.length).2) :
    (prepare fuel t (some input) input.length).1 = .ok () ∧
    ((prepare fuel t (some input) input.length).2.tree_[i]? = some t.invalid_ ↔
      ∀ w ∈ recursive_prepare_writes fuel 1 0 (input.length - 1), w.1 ≠ i) ∧
    (prepare fuel t (some input) input.length).2.tree_.countP
        (fun v => decide (v = t.invalid_)) =
      size (prepare fuel t (some input) input.length).2 - input.length := by
  obtain ⟨k, hk, hlo, hhi, _, hp⟩ := prepare_eq fuel t input input.length hn (le_refl _) hf
  rw [hp] at hi ⊢
  simp only [size, apply_writes_length, List.length_replicate] at hi ⊢
  refine ⟨trivial, ⟨?_, ?_⟩, ?_⟩
  · intro hslot w hw hwi
    have hc := prepared_content fuel input t.invalid_ input.length k hn (le_refl _) hhi w hw
    have h2 := (writes_mem fuel 1 0 (input.length - 1) (by omega) w hw).2.2
    have h2' : w.2 < input.length := by omega
    rw [hwi, hslot, List.getElem?_eq_getElem h2'] at hc
    injection hc with hc
    exact hinv (hc ▸ List.getElem_mem _)
  · intro hw
    rw [apply_writes_frame input _ i _ hw, List.getElem?_replicate]
    simp [hi]
  · rw [countP_sentinel, apply_writes_length, List.length_replicate,
      prepared_countP fuel input t.invalid_ k hn hhi hf hinv]

/-- Witness of the amended C14 on the driver's second array: slot 8 is within the capacity
16 and is not written. -/
theorem sentinel_slots_unwritten_witness :
    (prepare 10 (new Demo.INT_MIN (some Demo.compare)) (some Demo.data_2)
      Demo.data_2.length).1 = .ok () ∧
    ((prepare 10 (new Demo.INT_MIN (some Demo.compare)) (some Demo.data_2)
        Demo.data_2.length).2.tree_[8]? =
        some (new Demo.INT_MIN (some Demo.compare)).invalid_ ↔
      ∀ w ∈ recursive_prepare_writes 10 1 0 (Demo.data_2.length - 1), w.1 ≠ 8) ∧
    (prepare 10 (new Demo.INT_MIN (some Demo.compare)) (some Demo.data_2)
      Demo.data_2.length).2.tree_.countP
        (fun v => decide (v = (new Demo.INT_MIN (some Demo.compare)).invalid_)) =
      size (prepare 10 (new Demo.INT_MIN (some Demo.compare)) (some Demo.data_2)
        Demo.data_2.length).2 - Demo.data_2.length :=
  sentinel_slots_unwritten (new Demo.INT_MIN (some Demo.compare)) Demo.data_2 10 8
    (by decide) (by decide) (by decide) (by decide)

/-- Counterexample to C14 as stated, on the driver's second array (`n = 9`, no element
equal to the sentinel): slot 8 holds the sentinel although 8 is not beyond 9, and slot 11,
beyond 9, holds the element `10`; so "holds the sentinel iff `i > n`" fails. -/
theorem padding_positions_counterexample :
    Demo.INT_MIN ∉ Demo.data_2 ∧
    (prepare 10 (new Demo.INT_MIN (some Demo.compare)) (some Demo.data_2)
      Demo.data_2.length).1 = .ok () ∧
    (prepare 10 (new Demo.INT_MIN (some Demo.compare)) (some Demo.data_2)
      Demo.data_2.length).2.tree_[8]? = some Demo.INT_MIN ∧
    (prepare 10 (new Demo.INT_MIN (some Demo.compare)) (some Demo.data_2)
      Demo.data_2.length).2.tree_[11]? = some 10 ∧
    ¬ (∀ i, 1 ≤ i →
      i < size (prepare 10 (new Demo.INT_MIN (some Demo.compare)) (some Demo.data_2)
        Demo.data_2.length).2 →
      ((prepare 10 (new Demo.INT_MIN (some Demo.compare)) (some Demo.data_2)
        Demo.data_2.length).2.tree_[i]? = some Demo.INT_MIN ↔ Demo.data_2.length < i)) := by
  refine ⟨by decide, by decide, by decide, by decide, ?_⟩
  intro h
  have h8 := h 8 (by decide) (by decide)
  revert h8
  decide

/-! ## The shape of the tree -/

theorem writes_rightmost (f : Nat) : ∀ (i s e k : Nat), s ≤ e → e - s < f →
    2 ^ k ≤ e - s + 1 → e - s + 1 < 2 ^ (k + 1) →
    ((i + 1) * 2 ^ k - 1, e) ∈ recursive_prepare_writes f i s e := by
  induction f with
  | zero => intro i s e k _ h; omega
  | succ f ih =>
    intro i s e k hse hf hlo hhi
    rw [recursive_prepare_writes]
    rcases k with _ | k
    · simp only [pow_zero, zero_add, pow_one] at hlo hhi
      apply List.mem_cons.mpr
      left
      have h1 : (s + e) / 2 = e := by omega
      rw [h1]
      simp
    · have hp : 2 ^ (k + 1) = 2 * 2 ^ k := by rw [pow_succ]; ring
      have hp2 : 2 ^ (k + 1 + 1) = 2 * 2 ^ (k + 1) := by rw [pow_succ]; ring
      have hpos : 0 < 2 ^ k := Nat.pos_pow_of_pos k (by decide)
      have hc : (s + e) / 2 < e := by omega
      apply List.mem_cons_of_mem
      apply List.mem_append_right
      rw [if_pos hc]
      have h := ih (i * 2 + 1) ((s + e) / 2 + 1) e k (by omega) (by omega) (by omega)
        (by omega)
      have heq : (i * 2 + 1 + 1) * 2 ^ k = (i + 1) * 2 ^ (k + 1) := by rw [hp]; ring
      rw [heq] at h
      exact h

/-- C15, tree height: for every length `n ≥ 1`, `prepare` returns and its tree is the
sentinel-filled vector with the writes of the build replayed; the largest tree index `L`
written by the build is the last slot of that vector, `get(L)` returns the last input
element `input[n - 1]`, and the number of levels `1 + floor(log2 L)` equals
`ceil(log2 (n + 1))`. -/
theorem tree_height {α : Type} (t : BinarySearchArray α) (input : List α) (fuel n : Nat)
    (hn : 1 ≤ n) (hlen : n ≤ input.length) (hf : n < fuel) :
    (prepare fuel t (some input) n).1 = .ok () ∧
    (prepare fuel t (some input) n).2.tree_ =
      apply_writes input
        (List.replicate (size (prepare fuel t (some input) n).2) t.invalid_)
        (recursive_prepare_writes fuel 1 0 (n - 1)) ∧
    ∃ L, L ∈ (recursive_prepare_writes fuel 1 0 (n - 1)).map Prod.fst ∧
      (∀ j ∈ (recursive_prepare_writes fuel 1 0 (n - 1)).map Prod.fst, j ≤ L) ∧
      L + 1 = size (prepare fuel t (some input) n).2 ∧
      (∃ x, input[n - 1]? = some x ∧ get (prepare fuel t (some input) n).2 L = .ok x) ∧
      1 + Nat.log 2 L = Nat.clog 2 (n + 1) := by
  obtain ⟨k, hk, hlo, hhi, _, hp⟩ := prepare_eq fuel t input n hn hlen hf
  rw [hp]
  obtain ⟨m, rfl⟩ : ∃ m, k = m + 1 := ⟨k - 1, by omega⟩
  simp only [Nat.add_sub_cancel] at hlo
  have hpow : 2 ^ (m + 1) = 2 * 2 ^ m := by rw [pow_succ]; ring
  have hpos : 0 < 2 ^ m := Nat.pos_pow_of_pos m (by decide)
  have hmem := writes_rightmost fuel 1 0 (n - 1) m (by omega) (by omega) (by omega) (by omega)
  have heq : (1 + 1) * 2 ^ m - 1 = 2 ^ (m + 1) - 1 := by omega
  rw [heq] at hmem
  have hlast : n - 1 < input.length := by omega
  refine ⟨rfl, ?_, 2 ^ (m + 1) - 1, ?_, ?_, ?_, ?_, ?_⟩
  · simp [size, apply_writes_length]
  · exact List.mem_map.mpr ⟨_, hmem, rfl⟩
  · intro j hj
    obtain ⟨w, hw, rfl⟩ := List.mem_map.mp hj
    have := (writes_root_lt fuel n (m + 1) hn hhi w hw).2
    omega
  · simp only [size, apply_writes_length, List.length_replicate]
    omega
  · refine ⟨input[n - 1], List.getElem?_eq_getElem hlast, ?_⟩
    apply get_of_getElem? _ _ _ (by omega)
    have hc := prepared_content fuel input t.invalid_ n (m + 1) hn hlen hhi _ hmem
    simp only at hc ⊢
    rw [hc, List.getElem?_eq_getElem hlast]
  · have hlog : Nat.log 2 (2 ^ (m + 1) - 1) = m :=
      Nat.log_eq_of_pow_le_of_lt_pow (by omega) (by omega)
    have hclog1 : Nat.clog 2 (n + 1) ≤ m + 1 :=
      (Nat.le_pow_iff_clog_le (by decide)).mp (by omega)
    have hclog2 : m < Nat.clog 2 (n + 1) :=
      (Nat.pow_lt_iff_lt_clog (by decide)).mp (by omega)
    omega

/-- Witness of C15 on the driver's second array, of length 9: the largest written index is
15, slot 15 of the built tree holds the last element `15`, slot 11 on the fourth level holds
`10`, and the tree has 4 levels. -/
theorem tree_height_witness :
    ((prepare 10 (new Demo.INT_MIN (some Demo.compare)) (some Demo.data_2) 9).1 = .ok () ∧
      (prepare 10 (new Demo.INT_MIN (some Demo.compare)) (some Demo.data_2) 9).2.tree_ =
        apply_writes Demo.data_2
          (List.replicate (size (prepare 10 (new Demo.INT_MIN (some Demo.compare))
            (some Demo.data_2) 9).2) (new Demo.INT_MIN (some Demo.compare)).invalid_)
          (recursive_prepare_writes 10 1 0 (9 - 1)) ∧
      ∃ L, L ∈ (recursive_prepare_writes 10 1 0 (9 - 1)).map Prod.fst ∧
        (∀ j ∈ (recursive_prepare_writes 10 1 0 (9 - 1)).map Prod.fst, j ≤ L) ∧
        L + 1 = size (prepare 10 (new Demo.INT_MIN (some Demo.compare))
          (some Demo.data_2) 9).2 ∧
        (∃ x, Demo.data_2[9 - 1]? = some x ∧
          get (prepare 10 (new Demo.INT_MIN (some Demo.compare))
            (some Demo.data_2) 9).2 L = .ok x) ∧
        1 + Nat.log 2 L = Nat.clog 2 (9 + 1)) ∧
    15 ∈ (recursive_prepare_writes 10 1 0 (9 - 1)).map Prod.fst ∧
    (∀ j ∈ (recursive_prepare_writes 10 1 0 (9 - 1)).map Prod.fst, j ≤ 15) ∧
    get (prepare 10 (new Demo.INT_MIN (some Demo.compare)) (some Demo.data_2) 9).2 15
      = .ok 15 ∧
    get (prepare 10 (new Demo.INT_MIN (some Demo.compare)) (some Demo.data_2) 9).2 11
      = .ok 10 ∧
    1 + Nat.log 2 15 = 4 ∧ Nat.clog 2 (9 + 1) = 4 :=
  ⟨tree_height (new Demo.INT_MIN (some Demo.compare)) Demo.data_2 10 9 (by decide)
      (by decide) (by decide),
    by decide, by decide, by decide, by decide, by norm_num [Nat.log], by norm_num [Nat.clog]⟩

theorem nodup_fills_range (ws : List Nat) (n : Nat) (hnd : ws.Nodup) (hlen : ws.length = n)
    (hb : ∀ j ∈ ws, 1 ≤ j ∧ j ≤ n) : ∀ j, 1 ≤ j → j ≤ n → j ∈ ws := by
  have hsub : ws ⊆ List.range' 1 n := by
    intro j hj
    rw [List.mem_range'_1]
    have := hb j hj
    omega
  have hperm : ws.Perm (List.range' 1 n) :=
    (List.subperm_of_subset hnd hsub).perm_of_length_le (by simp [hlen])
  intro j h1 h2
  rw [hperm.mem_iff, List.mem_range'_1]
  omega

/-- C20, perfect fill for full levels: for every `k ≥ 1` and every input of length
`n = 2^k - 1` none of whose elements equals the sentinel, `prepare` returns, `size()` is
`n + 1`, every slot `j` with `1 ≤ j ≤ n` holds an input element, and a slot within the
vector holds the sentinel only if it is slot 0, which does hold it. -/
theorem perfect_fill {α : Type} [DecidableEq α] (t : BinarySearchArray α) (input : List α)
    (fuel k j : Nat) (hk : 1 ≤ k) (hlen : input.length = 2 ^ k - 1)
    (hinv : t.invalid_ ∉ input) (hf : input.length < fuel) (hj : j ≤ input.length) :
    (prepare fuel t (some input) input.length).1 = .ok () ∧
    size (prepare fuel t (some input) input.length).2 = input.length + 1 ∧
    (1 ≤ j → ∃ x ∈ input, get (prepare fuel t (some input) input.length).2 j = .ok x) ∧
    ((prepare fuel t (some input) input.length).2.tree_[j]? = some t.invalid_ ↔ j = 0) := by
  have hpos : 0 < 2 ^ (k - 1) := Nat.pos_pow_of_pos _ (by decide)
  have hpk : 2 ^ k = 2 * 2 ^ (k - 1) := by
    obtain ⟨m, rfl⟩ : ∃ m, k = m + 1 := ⟨k - 1, by omega⟩
    rw [pow_succ]
    simp only [Nat.add_sub_cancel]
    ring
  have hn : 1 ≤ input.length := by omega
  obtain ⟨k', hk', hlo, hhi, _, hp⟩ := prepare_eq fuel t input input.length hn (le_refl _) hf
  have hcap : 2 ^ k' = input.length + 1 := by
    have h1 : k ≤ k' := by
      by_contra hcon
      have : 2 ^ k' ≤ 2 ^ (k - 1) := Nat.pow_le_pow_right (by decide) (by omega)
      omega
    have h2 : k' ≤ k := by
      by_contra hcon
      have : 2 ^ k ≤ 2 ^ (k' - 1) := Nat.pow_le_pow_right (by decide) (by omega)
      omega
    have : k' = k := by omega
    rw [this]
    omega
  rw [hp]
  have hwritten : ∀ j, 1 ≤ j → j ≤ input.length →
      ∃ w ∈ recursive_prepare_writes fuel 1 0 (input.length - 1), w.1 = j := by
    intro j h1 h2
    have := nodup_fills_range _ input.length
      (writes_nodup fuel 1 0 (input.length - 1) (le_refl 1) (by omega))
      (by
        rw [List.length_map, writes_length fuel 1 0 (input.length - 1) (by omega) (by omega)]
        omega)
      (fun j hj => by
        obtain ⟨w, hw, rfl⟩ := List.mem_map.mp hj
        have := writes_root_lt fuel input.length k' hn hhi w hw
        omega)
      j h1 h2
    obtain ⟨w, hw, hwj⟩ := List.mem_map.mp this
    exact ⟨w, hw, hwj⟩
  have hslot : ∀ j, 1 ≤ j → j ≤ input.length → ∃ x ∈ input,
      (apply_writes input (List.replicate (2 ^ k') t.invalid_)
        (recursive_prepare_writes fuel 1 0 (input.length - 1)))[j]? = some x := by
    intro j h1 h2
    obtain ⟨w, hw, rfl⟩ := hwritten j h1 h2
    have hc := prepared_content fuel input t.invalid_ input.length k' hn (le_refl _) hhi w hw
    have hw2 := (writes_mem fuel 1 0 (input.length - 1) (by omega) w hw).2.2
    have hw2' : w.2 < input.length := by omega
    rw [List.getElem?_eq_getElem hw2'] at hc
    exact ⟨input[w.2], List.getElem_mem _, hc⟩
  refine ⟨rfl, ?_, ?_, ?_, ?_⟩
  · simp only [size, apply_writes_length, List.length_replicate]
    exact hcap
  · intro h1
    obtain ⟨x, hx, hslotx⟩ := hslot j h1 hj
    exact ⟨x, hx, get_of_getElem? _ j x (by omega) hslotx⟩
  · intro hsent
    by_contra hj0
    obtain ⟨x, hx, hslotx⟩ := hslot j (by omega) hj
    simp only at hsent
    rw [hsent] at hslotx
    injection hslotx with hslotx
    exact hinv (hslotx ▸ hx)
  · intro hj0
    subst hj0
    simp only
    rw [apply_writes_frame input _ 0 _ (fun w hw => by
      have := (writes_root_lt fuel input.length k' hn hhi w hw).1
      omega), List.getElem?_replicate]
    simp [hcap]

/-- Witness of C20 on the driver's first array, `n = 2^3 - 1`, at slot 5, together with the
slot contents named in the claim. -/
theorem perfect_fill_witness :
    ((prepare 8 (new Demo.INT_MIN (some Demo.compare)) (some Demo.data_1)
        Demo.data_1.length).1 = .ok () ∧
      size (prepare 8 (new Demo.INT_MIN (some Demo.compare)) (some Demo.data_1)
        Demo.data_1.length).2 = Demo.data_1.length + 1 ∧
      (1 ≤ 5 → ∃ x ∈ Demo.data_1, get (prepare 8 (new Demo.INT_MIN (some Demo.compare))
        (some Demo.data_1) Demo.data_1.length).2 5 = .ok x) ∧
      ((prepare 8 (new Demo.INT_MIN (some Demo.compare)) (some Demo.data_1)
          Demo.data_1.length).2.tree_[5]? =
          some (new Demo.INT_MIN (some Demo.compare)).invalid_ ↔ 5 = 0)) ∧
    (prepare 8 (new Demo.INT_MIN (some Demo.compare)) (some Demo.data_1)
      Demo.data_1.length).2.tree_ = [Demo.INT_MIN, 3, 1, 5, 0, 2, 4, 6] :=
  ⟨perfect_fill (new Demo.INT_MIN (some Demo.compare)) Demo.data_1 8 3 5 (by decide)
      (by decide) (by decide) (by decide) (by decide),
    by decide⟩

/-! ## In-order traversal -/

theorem inorder_some {α : Type} [DecidableEq α] (tree : List α) (invalid : α) (g i : Nat)
    (x : α) (hx : tree[i]? = some x) (hne : x ≠ invalid) :
    inorder tree invalid (g + 1) i =
      match inorder tree invalid g (i * 2), inorder tree invalid g (i * 2 + 1) with
      | some l, some r => some (l ++ x :: r)
      | _, _ => none := by
  obtain ⟨hi, hxi⟩ := List.getElem?_eq_some.mp hx
  rw [inorder, dif_pos hi, hxi, if_pos hne]

theorem inorder_empty {α : Type} [DecidableEq α] (tree : List α) (invalid : α) (g i : Nat)
    (hx : tree[i]? = none ∨ tree[i]? = some invalid) :
    inorder tree invalid (g + 1) i = some [] := by
  rw [inorder]
  rcases hx with hx | hx
  · have hi : ¬ i < tree.length := by
      rw [List.getElem?_eq_none_iff] at hx
      omega
    rw [dif_neg hi]
  · obtain ⟨hi, hxi⟩ := List.getElem?_eq_some.mp hx
    rw [dif_pos hi, hxi]
    simp

theorem slice_split {α : Type} (input : List α) (s c e : Nat) (hsc : s ≤ c) (hce : c ≤ e)
    (hc : c < input.length) :
    (input.drop s).take (e - s + 1) =
      (input.drop s).take (c - s) ++ input[c] :: (input.drop (c + 1)).take (e - c) := by
  have h1 : e - s + 1 = (c - s) + ((e - c) + 1) := by omega
  have h2 : s + (c - s) = c := by omega
  rw [h1, List.take_add, List.drop_drop, h2, List.drop_eq_getElem_cons hc, List.take_succ_cons]

theorem inorder_built {α : Type} [DecidableEq α] (input tree : List α) (invalid : α)
    (hinv : invalid ∉ input) (f : Nat) :
    ∀ (i s e g : Nat), 1 ≤ i → s ≤ e → e < input.length → e - s < f → e - s + 1 < g →
      (∀ w ∈ recursive_prepare_writes f i s e, tree[w.1]? = input[w.2]?) →
      (∀ j, (∃ d, j / 2 ^ d = i) → (∀ w ∈ recursive_prepare_writes f i s e, w.1 ≠ j) →
        tree[j]? = none ∨ tree[j]? = some invalid) →
      inorder tree invalid g i = some ((input.drop s).take (e - s + 1)) := by
  induction f with
  | zero => intro i s e g _ _ _ h; omega
  | succ f ih =>
    intro i s e g hi hse he hf hg hw hu
    obtain ⟨g, rfl⟩ : ∃ g', g = g' + 1 := ⟨g - 1, by omega⟩
    obtain ⟨g, rfl⟩ : ∃ g', g = g' + 1 := ⟨g - 1, by omega⟩
    have hc : (s + e) / 2 < input.length := by omega
    have hy : input[(s + e) / 2]? = some input[(s + e) / 2] := List.getElem?_eq_getElem hc
    have hroot : tree[i]? = some input[(s + e) / 2] := by
      rw [← hy]
      exact hw (i, (s + e) / 2) (by simp [recursive_prepare_writes])
    have hne : input[(s + e) / 2] ≠ invalid := by
      intro h
      exact hinv (h ▸ List.getElem_mem _)
    have hleft : inorder tree invalid (g + 1) (i * 2) =
        some ((input.drop s).take ((s + e) / 2 - s)) := by
      have hchild : ∀ j w d, j / 2 ^ d = i * 2 →
          w ∈ recursive_prepare_writes (f + 1) i s e → w.1 = j →
          s < (s + e) / 2 ∧ w ∈ recursive_prepare_writes f (i * 2) s ((s + e) / 2 - 1) := by
        intro j w d hd hwm hwj
        rcases writes_cases f i s e w hwm with h | h | ⟨hc', h⟩
        · exfalso
          rw [h] at hwj
          simp only at hwj
          have := Nat.div_le_self j (2 ^ d)
          omega
        · exact h
        · exfalso
          obtain ⟨⟨d', _, hd'⟩, _, _⟩ := writes_mem f _ _ _ (by omega) w h
          rw [hwj] at hd'
          exact sub_disjoint i j d d' hi hd hd'
      by_cases hsc : s < (s + e) / 2
      · have h := ih (i * 2) s ((s + e) / 2 - 1) (g + 1) (by omega) (by omega) (by omega)
          (by omega) (by omega)
          (fun w hw' => hw w (by
            rw [recursive_prepare_writes, if_pos hsc]
            simp [hw']))
          (fun j ⟨d, hd⟩ hnot => hu j ⟨d + 1, by rw [div_pow_succ, hd]; omega⟩
            (fun w hwm hwj => hnot w (hchild j w d hd hwm hwj).2 hwj))
        have hlen : (s + e) / 2 - 1 - s + 1 = (s + e) / 2 - s := by omega
        rw [hlen] at h
        exact h
      · have hlen : (s + e) / 2 - s = 0 := by omega
        rw [hlen, List.take_zero]
        apply inorder_empty
        apply hu (i * 2) ⟨1, by simp⟩
        intro w hwm hwj
        exact hsc (hchild (i * 2) w 0 (by simp) hwm hwj).1
    have hright : inorder tree invalid (g + 1) (i * 2 + 1) =
        some ((input.drop ((s + e) / 2 + 1)).take (e - (s + e) / 2)) := by
      have hchild' : ∀ j w d, j / 2 ^ d = i * 2 + 1 →
          w ∈ recursive_prepare_writes (f + 1) i s e → w.1 = j →
          (s + e) / 2 < e ∧
            w ∈ recursive_prepare_writes f (i * 2 + 1) ((s + e) / 2 + 1) e := by
        intro j w d hd hwm hwj
        rcases writes_cases f i s e w hwm with h | ⟨hc', h⟩ | h
        · exfalso
          rw [h] at hwj
          simp only at hwj
          have := Nat.div_le_self j (2 ^ d)
          omega
        · exfalso
          obtain ⟨⟨d', _, hd'⟩, _, _⟩ := writes_mem f _ _ _ (by omega) w h
          rw [hwj] at hd'
          exact sub_disjoint i j d' d hi hd' hd
        · exact h
      by_cases hce : (s + e) / 2 < e
      · have h := ih (i * 2 + 1) ((s + e) / 2 + 1) e (g + 1) (by omega) (by omega) he
          (by omega) (by omega)
          (fun w hw' => hw w (by
            rw [recursive_prepare_writes, if_pos hce]
            simp [hw']))
          (fun j ⟨d, hd⟩ hnot => hu j ⟨d + 1, by rw [div_pow_succ, hd]; omega⟩
            (fun w hwm hwj => hnot w (hchild' j w d hd hwm hwj).2 hwj))
        have hlen : e - ((s + e) / 2 + 1) + 1 = e - (s + e) / 2 := by omega
        rw [hlen] at h
        exact h
      · have hlen : e - (s + e) / 2 = 0 := by omega
        rw [hlen, List.take_zero]
        apply inorder_empty
        apply hu (i * 2 + 1) ⟨1, by simp; omega⟩
        intro w hwm hwj
        exact hce (hchild' (i * 2 + 1) w 0 (by simp) hwm hwj).1
    rw [inorder_some tree invalid (g + 1) i _ hroot hne, hleft, hright]
    simp only
    rw [slice_split input s ((s + e) / 2) e (by omega) (by omega) hc]

/-- C19, in-order reconstruction: for every input of length `n ≥ 1` none of whose elements
equals the sentinel, sorted or not, `prepare` returns and the in-order traversal of the
implicit tree from index 1 (subtree `2i`, slot `i`, subtree `2i + 1`, stopping at sentinel
slots and outside the vector) yields exactly the input sequence, in order. -/
theorem inorder_reconstruction {α : Type} [DecidableEq α] (t : BinarySearchArray α)
    (input : List α) (fuel fuel' : Nat) (hn : 1 ≤ input.length) (hinv : t.invalid_ ∉ input)
    (hf : input.length < fuel) (hf' : input.length < fuel') :
    (prepare fuel t (some input) input.length).1 = .ok () ∧
    inorder (prepare fuel t (some input) input.length).2.tree_ t.invalid_ fuel' 1 =
      some input := by
  obtain ⟨k, hk, hlo, hhi, _, hp⟩ := prepare_eq fuel t input input.length hn (le_refl _) hf
  rw [hp]
  refine ⟨rfl, ?_⟩
  simp only
  rw [inorder_built input _ t.invalid_ hinv fuel 1 0 (input.length - 1) fuel' (le_refl 1)
    (by omega) (by omega) (by omega) (by omega)
    (prepared_content fuel input t.invalid_ input.length k hn (le_refl _) hhi)]
  · have hlen : input.length - 1 - 0 + 1 = input.length := by omega
    rw [hlen, List.drop_zero, List.take_length]
  · intro j _ hnot
    rw [apply_writes_frame input _ j _ hnot, List.getElem?_replicate]
    split
    · exact Or.inr rfl
    · exact Or.inl rfl

/-- Witness of C19 on an input that is not sorted. -/
theorem inorder_reconstruction_witness :
    (prepare 5 (new Demo.INT_MIN (some Demo.compare)) (some [5, 3, 9, 1])
      [5, 3, 9, 1].length).1 = .ok () ∧
    inorder (prepare 5 (new Demo.INT_MIN (some Demo.compare)) (some [5, 3, 9, 1])
        [5, 3, 9, 1].length).2.tree_ (new Demo.INT_MIN (some Demo.compare)).invalid_ 5 1 =
      some [5, 3, 9, 1] :=
  inorder_reconstruction (new Demo.INT_MIN (some Demo.compare)) [5, 3, 9, 1] 5 5 (by decide)
    (by decide) (by decide) (by decide)

/-! ## The documented comparator convention and the driver -/

theorem writes_under_left (f i s e j d : Nat) (w : Nat × Nat) (hi : 1 ≤ i)
    (hd : j / 2 ^ d = i * 2) (hwm : w ∈ recursive_prepare_writes (f + 1) i s e)
    (hwj : w.1 = j) :
    s < (s + e) / 2 ∧ w ∈ recursive_prepare_writes f (i * 2) s ((s + e) / 2 - 1) := by
  rcases writes_cases f i s e w hwm with h | h | ⟨hc, h⟩
  · exfalso
    rw [h] at hwj
    simp only at hwj
    have := Nat.div_le_self j (2 ^ d)
    omega
  · exact h
  · exfalso
    obtain ⟨⟨d', _, hd'⟩, _, _⟩ := writes_mem f _ _ _ (by omega) w h
    rw [hwj] at hd'
    exact sub_disjoint i j d d' hi hd hd'

theorem search_loop_left_spine {α : Type} [DecidableEq α] (input tree : List α) (invalid : α)
    (compare : α → α → Int) (x : α) (hinv : invalid ∉ input) (f : Nat) :
    ∀ (i s e g : Nat), 1 ≤ i → s ≤ e → e < input.length → e - s < f → e - s + 1 < g →
      (∀ p y, s ≤ p → p ≤ e → input[p]? = some y → compare x y < 0) →
      (∀ w ∈ recursive_prepare_writes f i s e, tree[w.1]? = input[w.2]?) →
      (∀ j, (∃ d, j / 2 ^ d = i) → (∀ w ∈ recursive_prepare_writes f i s e, w.1 ≠ j) →
        tree[j]? = none ∨ tree[j]? = some invalid) →
      search_loop tree invalid compare x g i = .ok 0 := by
  induction f with
  | zero => intro i s e g _ _ _ h; omega
  | succ f ih =>
    intro i s e g hi hse he hf hg hlt hw hu
    obtain ⟨g, rfl⟩ : ∃ g', g = g' + 1 := ⟨g - 1, by omega⟩
    obtain ⟨g, rfl⟩ : ∃ g', g = g' + 1 := ⟨g - 1, by omega⟩
    have hc : (s + e) / 2 < input.length := by omega
    have hy : input[(s + e) / 2]? = some input[(s + e) / 2] := List.getElem?_eq_getElem hc
    have hroot : tree[i]? = some input[(s + e) / 2] := by
      rw [← hy]
      exact hw (i, (s + e) / 2) (by simp [recursive_prepare_writes])
    have hne : input[(s + e) / 2] ≠ invalid := by
      intro h
      exact hinv (h ▸ List.getElem_mem _)
    rw [search_loop_some _ _ _ _ _ _ _ hroot, if_pos hne,
      if_pos (hlt _ _ (by omega) (by omega) hy)]
    by_cases hsc : s < (s + e) / 2
    · exact ih (i * 2) s ((s + e) / 2 - 1) (g + 1) (by omega) (by omega) (by omega)
        (by omega) (by omega)
        (fun p y h1 h2 => hlt p y h1 (by omega))
        (fun w hw' => hw w (by
          rw [recursive_prepare_writes, if_pos hsc]
          simp [hw']))
        (fun j ⟨d, hd⟩ hnot => hu j ⟨d + 1, by rw [div_pow_succ, hd]; omega⟩
          (fun w hwm hwj => hnot w (writes_under_left f i s e j d w hi hd hwm hwj).2 hwj))
    · have hempty := hu (i * 2) ⟨1, by simp⟩
        (fun w hwm hwj =>
          hsc (writes_under_left f i s e (i * 2) 0 w hi (by simp) hwm hwj).1)
      rcases hempty with h | h
      · exact search_loop_none _ _ _ _ _ _ h
      · rw [search_loop_some _ _ _ _ _ _ _ h]
        simp

theorem documented_convention_misses_last {α : Type} [LinearOrder α]
    (t : BinarySearchArray α) (compare : α → α → Int) (input : List α) (fuel fuel' : Nat)
    (hn : 2 ≤ input.length) (hsorted : input.Pairwise (fun a b => a < b))
    (hinv : t.invalid_ ∉ input)
    (hdoc : ∀ a b, (a = b → compare a b = 0) ∧ (b < a → compare a b < 0) ∧
      (a ≠ b → ¬ b < a → 0 < compare a b))
    (ht : t.compare_ = some compare) (hf : input.length < fuel)
    (hf' : input.length < fuel') :
    ∃ x ∈ input, search fuel' (prepare fuel t (some input) input.length).2 x = .ok 0 := by
  obtain ⟨k, hk, hlo, hhi, _, hp⟩ :=
    prepare_eq fuel t input input.length (by omega) (le_refl _) hf
  have hlast : input.length - 1 < input.length := by omega
  refine ⟨input[input.length - 1], List.getElem_mem _, ?_⟩
  rw [hp]
  simp only [search, ht]
  have hcontent := prepared_content fuel input t.invalid_ input.length k (by omega)
    (le_refl _) hhi
  obtain ⟨f, rfl⟩ : ∃ f, fuel = f + 1 := ⟨fuel - 1, by omega⟩
  obtain ⟨g, rfl⟩ : ∃ g, fuel' = g + 1 := ⟨fuel' - 1, by omega⟩
  have hunwritten : ∀ j, (∀ w ∈ recursive_prepare_writes (f + 1) 1 0 (input.length - 1),
      w.1 ≠ j) →
      (apply_writes input (List.replicate (2 ^ k) t.invalid_)
        (recursive_prepare_writes (f + 1) 1 0 (input.length - 1)))[j]? = none ∨
      (apply_writes input (List.replicate (2 ^ k) t.invalid_)
        (recursive_prepare_writes (f + 1) 1 0 (input.length - 1)))[j]? =
          some t.invalid_ := by
    intro j hnot
    rw [apply_writes_frame input _ j _ hnot, List.getElem?_replicate]
    split
    · exact Or.inr rfl
    · exact Or.inl rfl
  have hc : (0 + (input.length - 1)) / 2 < input.length - 1 := by omega
  have hc' : (0 + (input.length - 1)) / 2 < input.length := by omega
  have hy : input[(0 + (input.length - 1)) / 2]? = some input[(0 + (input.length - 1)) / 2] :=
    List.getElem?_eq_getElem hc'
  have hx : input[input.length - 1]? = some input[input.length - 1] :=
    List.getElem?_eq_getElem hlast
  have hroot := hcontent (1, (0 + (input.length - 1)) / 2)
    (by simp [recursive_prepare_writes])
  simp only at hroot
  rw [hy] at hroot
  have hne : input[(0 + (input.length - 1)) / 2] ≠ t.invalid_ := by
    intro h
    exact hinv (h ▸ List.getElem_mem _)
  rw [search_loop_some _ _ _ _ _ _ _ hroot, if_pos hne,
    if_pos ((hdoc _ _).2.1 (sorted_getElem?_lt input hsorted _ _ _ _ hc hy hx))]
  by_cases hsc : 0 < (0 + (input.length - 1)) / 2
  · exact search_loop_left_spine input _ t.invalid_ compare _ hinv f (1 * 2) 0
      ((0 + (input.length - 1)) / 2 - 1) g (by omega) (by omega) (by omega) (by omega)
      (by omega)
      (fun p y _ h2 hpy => (hdoc _ _).2.1
        (sorted_getElem?_lt input hsorted p _ y _ (by omega) hpy hx))
      (fun w hw' => hcontent w (by
        rw [recursive_prepare_writes, if_pos hsc]
        exact List.mem_cons_of_mem _ (List.mem_append_left _ hw')))
      (fun j ⟨d, hd⟩ hnot => hunwritten j
        (fun w hwm hwj => hnot w
          (writes_under_left f 1 0 (input.length - 1) j d w (le_refl 1) hd hwm hwj).2 hwj))
  · have hempty := hunwritten (1 * 2)
      (fun w hwm hwj => hsc
        (writes_under_left f 1 0 (input.length - 1) (1 * 2) 0 w (le_refl 1) (by simp)
          hwm hwj).1)
    obtain ⟨g, rfl⟩ : ∃ g', g = g' + 1 := ⟨g - 1, by omega⟩
    rcases hempty with h | h
    · exact search_loop_none _ _ _ _ _ _ h
    · rw [search_loop_some _ _ _ _ _ _ _ h]
      simp

/-- C12: the comparator `Demo.compare_documented` follows the convention documented in the
header (0 for equal arguments, negative when the first is greater, positive otherwise), the
driver's first array is ascending and duplicate-free and contains the key `5`, `prepare`
returns, and yet `search(5)` returns 0; of the seven elements only the root element `3`
is found.  The same happens with every comparator of that convention: on every ascending
sentinel-free array of two or more elements `search` returns 0 for some element. -/
theorem documented_comparator_misses :
    (∀ a b : Int, (a = b → Demo.compare_documented a b = 0) ∧
      (b < a → Demo.compare_documented a b < 0) ∧
      (a ≠ b → ¬ b < a → 0 < Demo.compare_documented a b)) ∧
    Demo.data_1.Pairwise (fun a b => a < b) ∧
    Demo.key ∈ Demo.data_1 ∧
    (prepare 8 (new Demo.INT_MIN (some Demo.compare_documented)) (some Demo.data_1)
      Demo.data_1.length).1 = .ok () ∧
    search 8 (prepare 8 (new Demo.INT_MIN (some Demo.compare_documented)) (some Demo.data_1)
      Demo.data_1.length).2 Demo.key = .ok 0 ∧
    Demo.data_1.map (search 8 (prepare 8 (new Demo.INT_MIN (some Demo.compare_documented))
      (some Demo.data_1) Demo.data_1.length).2) =
      [.ok 0, .ok 0, .ok 0, .ok 1, .ok 0, .ok 0, .ok 0] ∧
    (∀ (t : BinarySearchArray Int) (compare : Int → Int → Int) (input : List Int)
      (fuel fuel' : Nat), 2 ≤ input.length → input.Pairwise (fun a b => a < b) →
      t.invalid_ ∉ input →
      (∀ a b, (a = b → compare a b = 0) ∧ (b < a → compare a b < 0) ∧
        (a ≠ b → ¬ b < a → 0 < compare a b)) →
      t.compare_ = some compare → input.length < fuel → input.length < fuel' →
      ∃ x ∈ input, search fuel' (prepare fuel t (some input) input.length).2 x = .ok 0) := by
  refine ⟨?_, by decide, by decide, by decide, by decide, by decide,
    fun t compare input fuel fuel' h1 h2 h3 h4 h5 h6 h7 =>
      documented_convention_misses_last t compare input fuel fuel' h1 h2 h3 h4 h5 h6 h7⟩
  intro a b
  unfold Demo.compare_documented
  refine ⟨?_, ?_, ?_⟩
  · intro h
    rw [if_pos h]
  · intro h
    rw [if_neg (by omega), if_pos (by omega)]
    decide
  · intro h1 h2
    rw [if_neg h1, if_neg (by omega)]
    decide

theorem print_stops (fuel : Nat) (tree : BinarySearchArray Int) (invalid : Int)
    (out : List Demo.Output) (hf : 0 < fuel) (hs : 0 < size tree) :
    Demo.print fuel tree invalid out = (.error .assertion, out) := by
  obtain ⟨f, rfl⟩ : ∃ f, fuel = f + 1 := ⟨fuel - 1, by omega⟩
  simp [Demo.print, Demo.print_loop, hs, BinarySearchArray.get]

theorem main_stops (fuel : Nat) (hf : 7 < fuel) :
    Demo.main fuel = (.error .assertion, []) := by
  obtain ⟨k, _, _, _, _, hp⟩ := prepare_eq fuel (new Demo.INT_MIN (some Demo.compare))
    Demo.data_1 Demo.data_1.length (by decide) (le_refl _)
    (by simp only [Demo.data_1, List.length_cons, List.length_nil]; omega)
  simp only [Demo.main, hp]
  rw [print_stops fuel _ Demo.INT_MIN [] (by omega)
    (by
      simp only [size, apply_writes_length, List.length_replicate]
      exact Nat.pos_pow_of_pos k (by decide))]

/-- C18: on the tree built from the driver's first array `get(0)` stops at its assertion
`0 < i`, so `print`, whose loop starts at `i = 0`, stops there before writing anything, and
so does `main`; the same holds for `print` on every non-empty tree and for `main` with any
larger fuel. -/
theorem driver_stops_at_slot_zero :
    get (prepare 8 (new Demo.INT_MIN (some Demo.compare)) (some Demo.data_1)
      Demo.data_1.length).2 0 = .error .assertion ∧
    Demo.print 8 (prepare 8 (new Demo.INT_MIN (some Demo.compare)) (some Demo.data_1)
      Demo.data_1.length).2 Demo.INT_MIN [] = (.error .assertion, []) ∧
    Demo.main 8 = (.error .assertion, []) ∧
    (∀ (fuel : Nat) (tree : BinarySearchArray Int) (invalid : Int) (out : List Demo.Output),
      0 < fuel → 0 < size tree →
      Demo.print fuel tree invalid out = (.error .assertion, out)) ∧
    (∀ fuel, 7 < fuel → Demo.main fuel = (.error .assertion, [])) :=
  ⟨by decide, by decide, by decide, print_stops, main_stops⟩
